import Mathlib

/-!
# grpcpool: a bounded pool of gRPC client connections (`pool.go`)

A shallow embedding of `pool.go` and the properties proved about it.

Modelling conventions

* `time.Time` and `time.Duration` are integers (nanoseconds); `t.Add(d)` is
  `t + d` and `t.Before(u)` is `t < u`.
* `time.Now()` is an oracle `clock : Nat → Time`: the `k`-th reading taken in
  an execution is `clock k`, and the world counts the readings taken so far.
* The factory is an oracle as well: its `k`-th invocation returns `g k`, a
  pair of a connection handle and an `error`; a nil factory is `none`.
* `*grpc.ClientConn` is an abstract handle; `Conn.Close()` belongs to the gRPC
  library and is recorded as an entry of the world's close log.
* `*poolConn` is a pointer: `none` is nil, `some a` is the address of the
  record `heap[a]`.  Records are mutated in place through the heap.
* A Go panic (and a send that would block for ever) is an `Abort`.
* The largest capacity for which `make(chan *poolConn, n)` does not panic is a
  constant of the Go runtime, not of `pool.go`; it is the parameter `maxChan`.
* The `sync.RWMutex` is not modelled: every operation runs to completion
  before the next one starts.
-/

namespace grpcpool

/-- A point in time, `time.Time`, in nanoseconds. -/
abbrev Time := Int

/-- A span of time, `time.Duration`, in nanoseconds. -/
abbrev Duration := Int

/-- Handle of a `*grpc.ClientConn`. -/
abbrev ClientConn := Nat

/-- The error values: the four sentinels of the package (lines 12-17) and any
other error value, which only a factory can produce. -/
inductive Error where
  | ErrParam
  | ErrClosed
  | ErrCreate
  | ErrFull
  | other (code : Nat)
  deriving DecidableEq, Repr

/-- Go's `error` interface value; `none` is the nil error. -/
abbrev error := Option Error

/-- The record `poolConn` (lines 27-31). -/
structure poolConn where
  Conn : ClientConn
  createTime : Time
  UpdateTime : Time
  deriving DecidableEq, Repr

/-- A `*poolConn`: nil or the heap address of a record. -/
abbrev Ptr := Option Nat

/-- A buffered channel `chan *poolConn`: the buffered elements oldest first,
the capacity given to `make`, and whether `close` was applied to it. -/
structure Chan where
  buf : List Ptr
  cap : Nat
  closed : Bool
  deriving DecidableEq, Repr

/-- The factory function value: nil, or an oracle giving the result of each
invocation by its index. -/
abbrev Factory := Option (Nat → ClientConn × error)

/-- The struct `Pool` (lines 19-25), without the mutex.  `conns = none` is the
nil channel. -/
structure Pool where
  conns : Option Chan
  factory : Factory
  idleTimeout : Duration
  lifetimeDuration : Duration

/-- Everything outside the pool that the code reads or writes. -/
structure World where
  /-- the allocated `poolConn` records, by address -/
  heap : List poolConn
  /-- the handles on which `Conn.Close()` was called, oldest first -/
  closed : List ClientConn
  /-- how many times a factory was invoked -/
  calls : Nat
  /-- how many times `time.Now()` was read -/
  ticks : Nat
  /-- the lines written by `log.Println`, oldest first -/
  logs : List String
  deriving DecidableEq, Repr

/-- The ways an operation can fail to return. -/
inductive Abort where
  /-- call of a nil function value -/
  | nilFunc
  /-- nil pointer dereference -/
  | nilDeref
  /-- the `close` of a nil channel -/
  | closeNilChan
  /-- the `close` of a closed channel -/
  | closeClosedChan
  /-- send on a closed channel -/
  | sendClosedChan
  /-- a send without `select` on a full channel: blocks for ever -/
  | blocked
  /-- a non-nil pointer that addresses no record: impossible in Go -/
  | dangling
  /-- a `make` of a channel whose size is out of range -/
  | makechan
  deriving DecidableEq, Repr

/-- Reading `time.Now()`. -/
def timeNow (clock : Nat → Time) (w : World) : Time × World :=
  (clock w.ticks, { w with ticks := w.ticks + 1 })

/-- Writing a line with `log.Println`. -/
def logPrintln (s : String) (w : World) : World :=
  { w with logs := w.logs ++ [s] }

/-- Calling `c.Close()` on a connection handle. -/
def connClose (c : ClientConn) (w : World) : World :=
  { w with closed := w.closed ++ [c] }

/-- Reading through a `*poolConn`. -/
def deref (w : World) (c : Ptr) : Except Abort poolConn :=
  match c with
  | none => .error .nilDeref
  | some a =>
    match w.heap[a]? with
    | none => .error .dangling
    | some r => .ok r

/-- Allocating a record, `&poolConn{...}`: the new address is the next free
one. -/
def alloc (r : poolConn) (w : World) : Nat × World :=
  (w.heap.length, { w with heap := w.heap ++ [r] })

/-- Invoking a factory function value. -/
def callFactory (f : Factory) (w : World) : Except Abort ((ClientConn × error) × World) :=
  match f with
  | none => .error .nilFunc
  | some g => .ok (g w.calls, { w with calls := w.calls + 1 })

/-- The body of the loop of `NewPool` (lines 45-55), run for the `n` iterations
that remain; `ch` is `pool.conns`.  Returns the error of the early return, or
nil and the filled channel. -/
def NewPool.loop (clock : Nat → Time) (factory : Factory) :
    Nat → Chan → World → Except Abort ((error × Chan) × World)
  | 0, ch, w => .ok ((none, ch), w)
  | n + 1, ch, w =>
    match callFactory factory w with
    | .error e => .error e
    | .ok ((c, err), w1) =>
      if err ≠ none then .ok ((err, ch), w1)
      else
        let (t1, w2) := timeNow clock w1
        let (t2, w3) := timeNow clock w2
        let (a, w4) := alloc { Conn := c, createTime := t1, UpdateTime := t2 } w3
        if ch.closed then .error .sendClosedChan
        else if ch.buf.length < ch.cap then
          NewPool.loop clock factory n { ch with buf := ch.buf ++ [some a] } w4
        else .error .blocked

/-- The expression `make(chan *poolConn, n)` (line 39): an open, empty channel
of capacity `n`.  The runtime panics when `n` is negative or larger than the
largest capacity it accepts, `maxChan`, a constant of the Go runtime that
`pool.go` does not fix. -/
def makeChan (maxChan : Nat) (n : Int) : Except Abort Chan :=
  if n < 0 ∨ (maxChan : Int) < n then .error .makechan
  else .ok { buf := [], cap := n.toNat, closed := false }

/-- The function `NewPool` (lines 33-58).  The result pair is
`(*Pool, error)`; `maxChan` is the runtime's limit on the capacity of the
channel made at line 39. -/
def NewPool (maxChan : Nat) (clock : Nat → Time) (factory : Factory) (len cap : Int)
    (idleTimeout lifetimeDuration : Duration) (w : World) :
    Except Abort ((Option Pool × error) × World) :=
  if len < 0 ∨ cap ≤ 0 ∨ len > cap then .ok ((none, some .ErrParam), w)
  else
    match makeChan maxChan cap with
    | .error e => .error e
    | .ok ch0 =>
      match NewPool.loop clock factory len.toNat ch0 w with
      | .error e => .error e
      | .ok ((some err, _), w1) => .ok ((none, some err), w1)
      | .ok ((none, ch), w1) =>
        .ok ((some { conns := some ch, factory := factory, idleTimeout := idleTimeout,
                     lifetimeDuration := lifetimeDuration }, none), w1)

/-- The method `createNewConn` (lines 92-103). -/
def Pool.createNewConn (clock : Nat → Time) (p : Pool) (w : World) :
    Except Abort ((Ptr × error) × World) :=
  match callFactory p.factory w with
  | .error e => .error e
  | .ok ((c, err), w1) =>
    if err ≠ none then .ok ((none, some .ErrCreate), w1)
    else
      let (t1, w2) := timeNow clock w1
      let (t2, w3) := timeNow clock w2
      let (a, w4) := alloc { Conn := c, createTime := t1, UpdateTime := t2 } w3
      .ok ((some a, none), w4)

/-- The condition of line 73,
`p.idleTimeout > 0 && conn.UpdateTime.Add(p.idleTimeout).Before(time.Now())`:
the clock is read only when the timeout is positive. -/
def Pool.idleExpired (clock : Nat → Time) (p : Pool) (conn : Ptr) (w : World) :
    Except Abort (Bool × World) :=
  if p.idleTimeout > 0 then
    match deref w conn with
    | .error e => .error e
    | .ok r =>
      let (now, w1) := timeNow clock w
      .ok (decide (r.UpdateTime + p.idleTimeout < now), w1)
  else .ok (false, w)

/-- The condition of line 78,
`p.lifetimeDuration > 0 && conn.createTime.Add(p.lifetimeDuration).Before(time.Now())`. -/
def Pool.lifetimeExpired (clock : Nat → Time) (p : Pool) (conn : Ptr) (w : World) :
    Except Abort (Bool × World) :=
  if p.lifetimeDuration > 0 then
    match deref w conn with
    | .error e => .error e
    | .ok r =>
      let (now, w1) := timeNow clock w
      .ok (decide (r.createTime + p.lifetimeDuration < now), w1)
  else .ok (false, w)

/-- The statement `conn.Conn.Close()`. -/
def closeRecord (conn : Ptr) (w : World) : Except Abort World :=
  match deref w conn with
  | .error e => .error e
  | .ok r => .ok (connClose r.Conn w)

/-- The statement `conn.UpdateTime = time.Now()` (line 84). -/
def touch (clock : Nat → Time) (conn : Ptr) (w : World) : Except Abort World :=
  match conn with
  | none => .error .nilDeref
  | some a =>
    match w.heap[a]? with
    | none => .error .dangling
    | some r =>
      let (now, w1) := timeNow clock w
      .ok { w1 with heap := w1.heap.set a { r with UpdateTime := now } }

/-- The first `case` of the `select` in `Get` (lines 70-85), entered with the
received pointer; `p` already has the element removed from its channel. -/
def Pool.Get.received (clock : Nat → Time) (p : Pool) (conn : Ptr) (w : World) :
    Except Abort ((Ptr × error) × Pool × World) :=
  match p.idleExpired clock conn w with
  | .error e => .error e
  | .ok (true, w1) =>
    match closeRecord conn (logPrintln "idle timeout, recreate" w1) with
    | .error e => .error e
    | .ok w2 =>
      match p.createNewConn clock w2 with
      | .error e => .error e
      | .ok (r, w3) => .ok (r, p, w3)
  | .ok (false, w1) =>
    match p.lifetimeExpired clock conn w1 with
    | .error e => .error e
    | .ok (true, w2) =>
      match closeRecord conn (logPrintln "reach lifetime, recreate" w2) with
      | .error e => .error e
      | .ok w3 =>
        match p.createNewConn clock w3 with
        | .error e => .error e
        | .ok (r, w4) => .ok (r, p, w4)
    | .ok (false, w2) =>
      match touch clock conn (logPrintln "get a connection" w2) with
      | .error e => .error e
      | .ok w3 => .ok ((conn, none), p, w3)

/-- The method `Get` (lines 60-90).  A receive in a `select` with a `default`
takes the oldest buffered element when there is one; on an empty channel it
reports `ok = false` when the channel is closed and falls to `default`
otherwise. -/
def Pool.Get (clock : Nat → Time) (p : Pool) (w : World) :
    Except Abort ((Ptr × error) × Pool × World) :=
  match p.conns with
  | none => .ok ((none, some .ErrClosed), p, w)
  | some ch =>
    match ch.buf with
    | [] =>
      if ch.closed then .ok ((none, some .ErrClosed), p, w)
      else
        match p.createNewConn clock (logPrintln "new a connection" w) with
        | .error e => .error e
        | .ok (r, w1) => .ok (r, p, w1)
    | conn :: rest =>
      Pool.Get.received clock { p with conns := some { ch with buf := rest } } conn w

/-- The method `Put` (lines 105-130).  A send in a `select` with a `default`
panics on a closed channel, appends when the buffer has room and falls to
`default` otherwise. -/
def Pool.Put (p : Pool) (conn : Ptr) (forceClose : Bool) (w : World) :
    Except Abort (error × Pool × World) :=
  match p.conns with
  | none => .ok (some .ErrClosed, p, w)
  | some ch =>
    if conn = none then .ok (none, p, w)
    else if forceClose then
      match closeRecord conn w with
      | .error e => .error e
      | .ok w1 => .ok (none, p, w1)
    else if ch.closed then .error .sendClosedChan
    else if ch.buf.length < ch.cap then
      .ok (none, { p with conns := some { ch with buf := ch.buf ++ [conn] } }, w)
    else
      match closeRecord conn (logPrintln "pool is full, close conn" w) with
      | .error e => .error e
      | .ok w1 => .ok (some .ErrFull, p, w1)

/-- The method `Len` (lines 132-136); `len` of a nil channel is 0. -/
def Pool.Len (p : Pool) : Nat :=
  match p.conns with
  | none => 0
  | some ch => ch.buf.length

/-- The loop `for conn := range p.conns { conn.Conn.Close() }` (lines 142-144)
over the elements left in the closed channel. -/
def Pool.Close.drain : List Ptr → World → Except Abort World
  | [], w => .ok w
  | conn :: rest, w =>
    match closeRecord conn w with
    | .error e => .error e
    | .ok w1 => Pool.Close.drain rest w1

/-- The method `Close` (lines 138-147). -/
def Pool.Close (p : Pool) (w : World) : Except Abort (error × Pool × World) :=
  match p.conns with
  | none => .error .closeNilChan
  | some ch =>
    if ch.closed then .error .closeClosedChan
    else
      match Pool.Close.drain ch.buf w with
      | .error e => .error e
      | .ok w1 => .ok (none, { p with conns := none }, w1)

/-- A call of one of the four methods of a pool, with its arguments. -/
inductive Call where
  | Get
  | Put (conn : Ptr) (forceClose : Bool)
  | Len
  | Close
  deriving DecidableEq, Repr

/-- What a call of a method returned. -/
inductive Ret where
  | Get (conn : Ptr) (err : error)
  | Put (err : error)
  | Len (n : Nat)
  | Close (err : error)
  deriving DecidableEq, Repr

/-- One method call on a pool. -/
def Pool.call (clock : Nat → Time) (p : Pool) (w : World) :
    Call → Except Abort (Ret × Pool × World)
  | .Get =>
    match p.Get clock w with
    | .error e => .error e
    | .ok ((c, err), p1, w1) => .ok (.Get c err, p1, w1)
  | .Put conn forceClose =>
    match p.Put conn forceClose w with
    | .error e => .error e
    | .ok (err, p1, w1) => .ok (.Put err, p1, w1)
  | .Len => .ok (.Len p.Len, p, w)
  | .Close =>
    match p.Close w with
    | .error e => .error e
    | .ok (err, p1, w1) => .ok (.Close err, p1, w1)

/-- A sequence of method calls on a pool, one after the other; the results are
listed in call order. -/
def Pool.run (clock : Nat → Time) : List Call → Pool → World →
    Except Abort (List Ret × Pool × World)
  | [], p, w => .ok ([], p, w)
  | c :: cs, p, w =>
    match p.call clock w c with
    | .error e => .error e
    | .ok (r, p1, w1) =>
      match Pool.run clock cs p1 w1 with
      | .error e => .error e
      | .ok (rs, p2, w2) => .ok (r :: rs, p2, w2)

/-- The connection handle held by the record a pointer addresses, if any. -/
def connAt (heap : List poolConn) (c : Ptr) : Option ClientConn :=
  match c with
  | none => none
  | some a => (heap[a]?).map poolConn.Conn

/-- The connection handles of the entries of an idle queue, entry by entry. -/
def idleConns (heap : List poolConn) (buf : List Ptr) : List ClientConn :=
  buf.filterMap (connAt heap)

/-- Every entry of an idle queue is a non-nil pointer to an allocated record:
what Go guarantees of the pointers `NewPool` and `Put` send. -/
def validQueue (heap : List poolConn) (buf : List Ptr) : Prop :=
  ∀ c ∈ buf, ∃ a, c = some a ∧ a < heap.length

/-- A call that is a `Get` or a `Put`. -/
def Call.isGetOrPut : Call → Bool
  | .Get => true
  | .Put _ _ => true
  | .Len => false
  | .Close => false

/-- What a `Get` or a `Put` returns when it reports `ErrClosed`: `(nil,
ErrClosed)` from `Get` and `ErrClosed` from `Put`. -/
def Call.closedRet (c : Call) : Ret :=
  if c = Call.Get then Ret.Get none (some Error.ErrClosed) else Ret.Put (some Error.ErrClosed)

/-- A factory for the examples: its `k`-th connection has handle `k + 10`. -/
def exFactory : Nat → ClientConn × error := fun k => (k + 10, none)

/-- A clock for the examples: it starts at 100 and advances by one at every
reading. -/
def exClock : Nat → Time := fun k => 100 + k

/-- A channel capacity limit for the examples, that of 64-bit Linux: elements
of 8 bytes, at most `2^48` bytes less a channel header of 96 bytes. -/
def exMaxChan : Nat := 2 ^ 45 - 12

/-- A factory for the examples that fails on every invocation with the
sentinel `ErrParam` of the package. -/
def exFactoryParam : Nat → ClientConn × error := fun _ => (0, some Error.ErrParam)

/-- The world before anything happened. -/
def exWorld : World := { heap := [], closed := [], calls := 0, ticks := 0, logs := [] }

/-- The staleness test of `Get` on a record at a clock reading `now`: the
condition of line 73 or the condition of line 78. -/
def Pool.staleAt (p : Pool) (r : poolConn) (now : Time) : Prop :=
  (0 < p.idleTimeout ∧ r.UpdateTime + p.idleTimeout < now) ∨
  (0 < p.lifetimeDuration ∧ r.createTime + p.lifetimeDuration < now)

/-- How many clock readings the idle check of `Get` takes: one when the idle
timeout is positive, none otherwise. -/
def Pool.idleReads (p : Pool) : Nat := if 0 < p.idleTimeout then 1 else 0

/-- How many clock readings the lifetime check of `Get` takes. -/
def Pool.lifetimeReads (p : Pool) : Nat := if 0 < p.lifetimeDuration then 1 else 0

/-- Staleness as the specification words it, at a time `now`: a positive
idle timeout with `now - lastUsedAt >= idleTimeout`, or a positive lifetime
with `now - createdAt >= lifetime`. -/
def specStale (idleTimeout lifetime : Duration) (r : poolConn) (now : Time) : Prop :=
  (0 < idleTimeout ∧ now - r.UpdateTime ≥ idleTimeout) ∨
  (0 < lifetime ∧ now - r.createTime ≥ lifetime)

/-- A clock for the examples that reads 100 twice and 110 from then on. -/
def exClockStep : Nat → Time := fun k => if k < 2 then 100 else 110

/-- The record invariant at a world: every allocated record was created no
later than it was last used, and no later than the next reading of the
clock. -/
def heapOk (clock : Nat → Time) (w : World) : Prop :=
  ∀ r ∈ w.heap, r.createTime ≤ r.UpdateTime ∧ r.createTime ≤ clock w.ticks

/-- The idle queue of a pool: the elements buffered in its channel, oldest
first; a nil channel holds none. -/
def Pool.idle (p : Pool) : List Ptr :=
  match p.conns with
  | none => []
  | some ch => ch.buf

/-- A factory for the examples that succeeds once, with connection 10, and
fails with the same error on every later invocation. -/
def exFactoryOnce : Nat → ClientConn × error :=
  fun k => if k = 0 then (10, none) else (0, some (Error.other 1))

/-- The capacity invariant of a pool for the capacity `c`: a non-nil channel
has capacity `c` and buffers at most `c` elements. -/
def capOk (c : Nat) (p : Pool) : Prop :=
  ∀ ch, p.conns = some ch → ch.cap = c ∧ ch.buf.length ≤ c

/-- Every record allocated in `w` is still allocated in `w'`, at the same
address, with the `createTime` and the connection it had. -/
def createKept (w w' : World) : Prop :=
  ∀ (a : Nat) (r : poolConn), w.heap[a]? = some r →
    ∃ r' : poolConn, w'.heap[a]? = some r' ∧ r'.createTime = r.createTime ∧ r'.Conn = r.Conn

/-- A result of a successful `Get`: its error is nil. -/
def Ret.isGot : Ret → Bool
  | .Get _ none => true
  | _ => false

/-- How many of the results are results of a successful `Get`. -/
def countGot (rs : List Ret) : Nat := rs.countP Ret.isGot

/-- A `Put` that returned its record to the idle queue: a non-nil record, no
forced close, and nil returned (a full queue returns `ErrFull`). -/
def Call.enqueued : Call → Ret → Bool
  | .Put (some _) false, .Put none => true
  | _, _ => false

/-- How many calls of a sequence, given with their results, were a `Put` that
returned its record to the idle queue. -/
def countEnqueued : List Call → List Ret → Nat
  | c :: cs, r :: rs => (if c.enqueued r then 1 else 0) + countEnqueued cs rs
  | _, _ => 0

/-- How many of the first `n` invocations of a factory succeeded, that is, how
many connections it created in them. -/
def created (g : Nat → ClientConn × error) : Nat → Nat
  | 0 => 0
  | n + 1 => created g n + (if (g n).2 = none then 1 else 0)

/-! ## Construction -/

/-- A `make` that returns gives an open, empty channel of the capacity asked
for, and the capacity is within the runtime's limit. -/
theorem makeChan_ok (maxChan : Nat) (n : Int) (ch : Chan) (h : makeChan maxChan n = .ok ch) :
    ch = { buf := [], cap := n.toNat, closed := false } ∧ 0 ≤ n ∧ n ≤ maxChan := by
  unfold makeChan at h
  split at h
  · exact Except.noConfusion h
  · rename_i hnot
    cases h
    exact ⟨rfl, by omega, by omega⟩

/-- Within the runtime's limit `make` returns. -/
theorem makeChan_of_le (maxChan : Nat) (n : Int) (h0 : 0 ≤ n) (hmax : n ≤ maxChan) :
    makeChan maxChan n = .ok { buf := [], cap := n.toNat, closed := false } := by
  have hnot : ¬ (n < 0 ∨ (maxChan : Int) < n) := by omega
  simp [makeChan, hnot]

/-- The loop of `NewPool` with a factory that never fails: when the channel is
open and has room for the `n` records still to come, the loop finishes without
error after exactly `n` factory invocations and `n` sends. -/
theorem NewPool.loop_ok (clock : Nat → Time) (g : Nat → ClientConn × error)
    (hg : ∀ k, (g k).2 = none) :
    ∀ (n : Nat) (ch : Chan) (w : World), ch.closed = false → ch.buf.length + n ≤ ch.cap →
      ∃ ch' w', NewPool.loop clock (some g) n ch w = .ok ((none, ch'), w') ∧
        w'.calls = w.calls + n ∧ ch'.buf.length = ch.buf.length + n ∧
        ch'.cap = ch.cap ∧ ch'.closed = false := by
  intro n
  induction n with
  | zero =>
    intro ch w hc _
    exact ⟨ch, w, rfl, rfl, rfl, rfl, hc⟩
  | succ n ih =>
    intro ch w hc hroom
    have hlt : ch.buf.length < ch.cap := by omega
    obtain ⟨ch', w', hrun, hcalls, hlen, hcap, hcl⟩ :=
      ih { ch with buf := ch.buf ++ [some (w.heap.length)] }
        { heap := w.heap ++ [{ Conn := (g w.calls).1, createTime := clock w.ticks,
                                UpdateTime := clock (w.ticks + 1) }],
          closed := w.closed, calls := w.calls + 1, ticks := w.ticks + 1 + 1, logs := w.logs }
        hc (by simp; omega)
    refine ⟨ch', w', ?_, ?_, ?_, hcap, hcl⟩
    · simp only [NewPool.loop, callFactory, hg, timeNow, alloc, hc, hlt]
      simpa [hc] using hrun
    · simp at hcalls; omega
    · simp at hlen; omega

/-- C1: whenever `len < 0`, `cap <= 0` or `len > cap`, `NewPool` returns no pool
and `ErrParam`, for every factory (nil included) and every pair of durations,
and it leaves the world as it found it: the factory was not invoked and no
record was allocated. -/
theorem NewPool_bad_params (maxChan : Nat) (clock : Nat → Time) (factory : Factory) (len cap : Int)
    (idleTimeout lifetimeDuration : Duration) (w : World)
    (h : len < 0 ∨ cap ≤ 0 ∨ len > cap) :
    NewPool maxChan clock factory len cap idleTimeout lifetimeDuration w
      = .ok ((none, some Error.ErrParam), w) := by
  simp [NewPool, h]

/-- Witness of C1: length 3 with capacity 2. -/
theorem NewPool_bad_params_witness :
    ((3 : Int) < 0 ∨ (2 : Int) ≤ 0 ∨ (3 : Int) > 2) ∧
    NewPool exMaxChan (fun k => k) (some fun k => (k, none)) 3 2 0 0 ⟨[], [], 0, 0, []⟩
      = .ok ((none, some Error.ErrParam), ⟨[], [], 0, 0, []⟩) :=
  ⟨by decide, NewPool_bad_params exMaxChan _ _ 3 2 0 0 _ (by decide)⟩

/-- C2, as stated, fails: with `n = 1` and `cap = 2^62`, which satisfy
`0 <= n <= cap` and `cap > 0`, and a factory that succeeds on every invocation,
the `make` of line 39 panics with a size out of range: `NewPool` does not
return, and the factory is never invoked.  (A buffer of `2^62` pointers of 8
bytes does not fit the address space of any 64-bit runtime.) -/
theorem NewPool_huge_cap_counterexample :
    ((0 : Int) ≤ 1 ∧ (1 : Int) ≤ 2 ^ 62 ∧ (0 : Int) < 2 ^ 62) ∧
    NewPool exMaxChan exClock (some exFactory) 1 (2 ^ 62) 0 0 exWorld
      = .error Abort.makechan := by
  refine ⟨by decide, ?_⟩
  have hguard : ¬ ((1 : Int) < 0 ∨ (2 : Int) ^ 62 ≤ 0 ∨ (1 : Int) > 2 ^ 62) := by decide
  have hmake : (2 : Int) ^ 62 < 0 ∨ ((exMaxChan : Nat) : Int) < 2 ^ 62 := by
    right
    unfold exMaxChan
    norm_num
  simp only [NewPool, hguard, if_false, makeChan, hmake, if_true]

/-- C2 (amended): for `0 <= n <= cap`, `cap > 0`, `cap` no larger than the
largest channel capacity the runtime accepts, and a factory that succeeds on
every invocation, `NewPool` returns a pool and a nil error, has invoked the
factory exactly `n` times, and `Len()` of the pool is `n`. -/
theorem NewPool_prewarm (maxChan : Nat) (clock : Nat → Time) (g : Nat → ClientConn × error)
    (n cap : Int) (idleTimeout lifetimeDuration : Duration) (w : World)
    (h0 : 0 ≤ n) (hle : n ≤ cap) (hcap : 0 < cap) (hmax : cap ≤ maxChan)
    (hg : ∀ k, (g k).2 = none) :
    ∃ p w', NewPool maxChan clock (some g) n cap idleTimeout lifetimeDuration w
        = .ok ((some p, none), w') ∧
      (w'.calls : Int) = w.calls + n ∧ (p.Len : Int) = n := by
  obtain ⟨ch', w', hrun, hcalls, hlen, -, -⟩ :=
    NewPool.loop_ok clock g hg n.toNat { buf := [], cap := cap.toNat, closed := false } w rfl
      (by simp; omega)
  have hnot : ¬ (n < 0 ∨ cap ≤ 0 ∨ n > cap) := by omega
  refine ⟨{ conns := some ch', factory := some g, idleTimeout := idleTimeout,
            lifetimeDuration := lifetimeDuration }, w', ?_, ?_, ?_⟩
  · simp only [NewPool, hnot, if_false, makeChan_of_le maxChan cap (by omega) hmax, hrun]
  · rw [hcalls]; push_cast; rw [Int.toNat_of_nonneg h0]
  · simp only [Pool.Len, hlen]; simp [Int.toNat_of_nonneg h0]

/-- Witness of C2: two connections in a pool of capacity five. -/
theorem NewPool_prewarm_witness :
    ∃ p w', NewPool exMaxChan (fun k => k) (some fun k => (k, none)) 2 5 0 0
          ⟨[], [], 0, 0, []⟩
        = .ok ((some p, none), w') ∧
      (w'.calls : Int) = (0 : Nat) + 2 ∧ (p.Len : Int) = 2 :=
  NewPool_prewarm exMaxChan _ _ 2 5 0 0 ⟨[], [], 0, 0, []⟩ (by decide) (by decide) (by decide)
    (by unfold exMaxChan; norm_num) (fun _ => rfl)

/-! ## Close -/

/-- Reading through a pointer to an allocated record succeeds. -/
theorem deref_valid (w : World) (a : Nat) (h : a < w.heap.length) :
    deref w (some a) = .ok (w.heap.get ⟨a, h⟩) := by
  simp [deref, List.getElem?_eq_getElem h]

/-- The handle of an allocated record. -/
theorem connAt_valid (heap : List poolConn) (a : Nat) (h : a < heap.length) :
    connAt heap (some a) = some (heap.get ⟨a, h⟩).Conn := by
  simp [connAt, List.getElem?_eq_getElem h]

/-- The drain loop of `Close` calls `Conn.Close()` once for every entry, in
queue order, and changes nothing else. -/
theorem Pool.Close.drain_valid :
    ∀ (buf : List Ptr) (w : World), validQueue w.heap buf →
      Pool.Close.drain buf w
        = .ok { w with closed := w.closed ++ idleConns w.heap buf } := by
  intro buf
  induction buf with
  | nil => intro w _; simp [Pool.Close.drain, idleConns]
  | cons c rest ih =>
    intro w hv
    obtain ⟨a, rfl, ha⟩ := hv c (List.mem_cons_self _ _)
    have hrest : validQueue w.heap rest := fun c hc => hv c (List.mem_cons_of_mem _ hc)
    have := ih (connClose (w.heap.get ⟨a, ha⟩).Conn w) hrest
    simp only [Pool.Close.drain, closeRecord, deref_valid w a ha, this]
    simp [connClose, idleConns, List.filterMap_cons, connAt_valid _ a ha]

/-- On a valid queue every entry contributes one handle. -/
theorem idleConns_length (heap : List poolConn) :
    ∀ buf : List Ptr, validQueue heap buf → (idleConns heap buf).length = buf.length := by
  intro buf
  induction buf with
  | nil => intro _; rfl
  | cons c rest ih =>
    intro hv
    obtain ⟨a, rfl, ha⟩ := hv c (List.mem_cons_self _ _)
    have hrest : validQueue heap rest := fun c hc => hv c (List.mem_cons_of_mem _ hc)
    simp [idleConns, List.filterMap_cons, connAt_valid _ a ha] at ih ⊢
    exact ih hrest

/-- On a pool whose channel is nil, every sequence of `Get` and `Put` calls
returns `ErrClosed` from each call and changes nothing. -/
theorem Pool.run_closed (clock : Nat → Time) (p : Pool) (w : World) (hp : p.conns = none) :
    ∀ calls : List Call, (∀ c ∈ calls, c.isGetOrPut = true) →
      Pool.run clock calls p w = .ok (calls.map Call.closedRet, p, w) := by
  intro calls
  induction calls with
  | nil => intro _; rfl
  | cons c cs ih =>
    intro h
    have hcs := ih (fun c hc => h c (List.mem_cons_of_mem _ hc))
    have hc := h c (List.mem_cons_self _ _)
    cases c with
    | Get => simp [Pool.run, Pool.call, Pool.Get, hp, hcs, Call.closedRet]
    | Put conn fc => simp [Pool.run, Pool.call, Pool.Put, hp, hcs, Call.closedRet]
    | Len => simp [Call.isGetOrPut] at hc
    | Close => simp [Call.isGetOrPut] at hc

/-- C3, as stated, fails: a pool of capacity 2 built by `NewPool`, one `Get`
that creates the record at address 0 (connection 10), and two `Put`s of that
record leave the record twice in the idle queue; `Close` then calls `Close()`
on connection 10 twice. -/
theorem Close_shared_record_counterexample :
    NewPool exMaxChan exClock (some exFactory) 0 2 0 0 exWorld
      = .ok ((some ⟨some ⟨[], 2, false⟩, some exFactory, 0, 0⟩, none), exWorld) ∧
    Pool.run exClock [Call.Get, Call.Put (some 0) false, Call.Put (some 0) false, Call.Close]
        ⟨some ⟨[], 2, false⟩, some exFactory, 0, 0⟩ exWorld
      = .ok ([Ret.Get (some 0) none, Ret.Put none, Ret.Put none, Ret.Close none],
          ⟨none, some exFactory, 0, 0⟩,
          ⟨[⟨10, 100, 101⟩], [10, 10], 1, 2, ["new a connection"]⟩) ∧
    List.count 10 ([10, 10] : List ClientConn) = 2 := by
  refine ⟨rfl, rfl, rfl⟩

/-- C3 (amended): on an open pool whose idle queue holds valid records,
`Close()` returns nil and leaves the channel nil; it calls `Close()` once for
every entry of the idle queue, in queue order, and on nothing else, so that a
connection held by exactly one idle entry is closed exactly once; and after it
every sequence of `Get` and `Put` calls returns `(nil, ErrClosed)` from each
`Get` and `ErrClosed` from each `Put`, and changes nothing. -/
theorem Close_then_ErrClosed (clock : Nat → Time) (p : Pool) (ch : Chan) (w : World)
    (hp : p.conns = some ch) (hopen : ch.closed = false)
    (hv : validQueue w.heap ch.buf) :
    p.Close w = .ok (none, { p with conns := none },
        { w with closed := w.closed ++ idleConns w.heap ch.buf }) ∧
    (idleConns w.heap ch.buf).length = ch.buf.length ∧
    (∀ c, (idleConns w.heap ch.buf).count c = 1 →
        (w.closed ++ idleConns w.heap ch.buf).count c = w.closed.count c + 1) ∧
    (∀ c, c ∉ idleConns w.heap ch.buf →
        (w.closed ++ idleConns w.heap ch.buf).count c = w.closed.count c) ∧
    ∀ calls : List Call, (∀ c ∈ calls, c.isGetOrPut = true) →
      Pool.run clock calls { p with conns := none }
          { w with closed := w.closed ++ idleConns w.heap ch.buf }
        = .ok (calls.map Call.closedRet, { p with conns := none },
            { w with closed := w.closed ++ idleConns w.heap ch.buf }) := by
  refine ⟨?_, idleConns_length _ _ hv, ?_, ?_, ?_⟩
  · simp [Pool.Close, hp, hopen, Pool.Close.drain_valid _ _ hv]
  · intro c hc
    rw [List.count_append, hc]
  · intro c hc
    rw [List.count_append, List.count_eq_zero_of_not_mem hc, Nat.add_zero]
  · intro calls hcalls
    exact Pool.run_closed clock _ _ rfl calls hcalls

/-- Witness of C3: closing a pool with two idle records, then a `Get` and a
`Put`. -/
theorem Close_then_ErrClosed_witness :
    Pool.run exClock [Call.Get, Call.Put (some 0) true]
        ⟨none, some exFactory, 0, 0⟩ ⟨[⟨10, 100, 101⟩, ⟨11, 102, 103⟩], [10, 11], 2, 4, []⟩
      = .ok ([Ret.Get none (some Error.ErrClosed), Ret.Put (some Error.ErrClosed)],
          ⟨none, some exFactory, 0, 0⟩,
          ⟨[⟨10, 100, 101⟩, ⟨11, 102, 103⟩], [10, 11], 2, 4, []⟩) :=
  (Close_then_ErrClosed exClock ⟨some ⟨[some 0, some 1], 5, false⟩, some exFactory, 0, 0⟩
    ⟨[some 0, some 1], 5, false⟩ ⟨[⟨10, 100, 101⟩, ⟨11, 102, 103⟩], [], 2, 4, []⟩ rfl rfl
    (by simp [validQueue])).2.2.2.2 [Call.Get, Call.Put (some 0) true] (by decide)

/-! ## Get -/

/-- A received record on which neither check fires is handed out: its
`UpdateTime` becomes the reading that follows the readings of the checks, and
nothing else changes but the log and the clock. -/
theorem Pool.Get.received_fresh (clock : Nat → Time) (p : Pool) (w : World) (a : Nat)
    (r : poolConn) (ha : w.heap[a]? = some r)
    (hidle : ¬ (0 < p.idleTimeout ∧ r.UpdateTime + p.idleTimeout < clock w.ticks))
    (hlife : ¬ (0 < p.lifetimeDuration ∧
      r.createTime + p.lifetimeDuration < clock (w.ticks + p.idleReads))) :
    Pool.Get.received clock p (some a) w
      = .ok ((some a, none), p,
          { heap := w.heap.set a
              { r with UpdateTime := clock (w.ticks + p.idleReads + p.lifetimeReads) },
            closed := w.closed, calls := w.calls,
            ticks := w.ticks + p.idleReads + p.lifetimeReads + 1,
            logs := w.logs ++ ["get a connection"] }) := by
  by_cases hi : 0 < p.idleTimeout <;> by_cases hl : 0 < p.lifetimeDuration <;>
    simp [hi, hl, Pool.idleReads] at hidle hlife <;>
    simp [Pool.Get.received, Pool.idleExpired, Pool.lifetimeExpired, touch, deref, timeNow,
      logPrintln, ha, hi, hl, hidle, hlife, Pool.idleReads, Pool.lifetimeReads, not_lt.mpr]

/-- A received record on which the idle check fires is closed and replaced by
what `createNewConn` returns. -/
theorem Pool.Get.received_idle (clock : Nat → Time) (p : Pool) (w : World) (a : Nat)
    (r : poolConn) (ha : w.heap[a]? = some r)
    (hidle : 0 < p.idleTimeout ∧ r.UpdateTime + p.idleTimeout < clock w.ticks) :
    Pool.Get.received clock p (some a) w
      = match p.createNewConn clock
          { heap := w.heap, closed := w.closed ++ [r.Conn], calls := w.calls,
            ticks := w.ticks + 1, logs := w.logs ++ ["idle timeout, recreate"] } with
        | .error e => .error e
        | .ok (res, w1) => .ok (res, p, w1) := by
  simp [Pool.Get.received, Pool.idleExpired, closeRecord, connClose, deref, timeNow,
    logPrintln, ha, hidle.1, hidle.2]

/-- A received record on which the idle check does not fire and the lifetime
check does is closed and replaced by what `createNewConn` returns. -/
theorem Pool.Get.received_lifetime (clock : Nat → Time) (p : Pool) (w : World) (a : Nat)
    (r : poolConn) (ha : w.heap[a]? = some r)
    (hidle : ¬ (0 < p.idleTimeout ∧ r.UpdateTime + p.idleTimeout < clock w.ticks))
    (hlife : 0 < p.lifetimeDuration ∧
      r.createTime + p.lifetimeDuration < clock (w.ticks + p.idleReads)) :
    Pool.Get.received clock p (some a) w
      = match p.createNewConn clock
          { heap := w.heap, closed := w.closed ++ [r.Conn], calls := w.calls,
            ticks := w.ticks + p.idleReads + 1,
            logs := w.logs ++ ["reach lifetime, recreate"] } with
        | .error e => .error e
        | .ok (res, w1) => .ok (res, p, w1) := by
  obtain ⟨hl, hlt⟩ := hlife
  by_cases hi : 0 < p.idleTimeout <;>
    simp [hi, Pool.idleReads] at hidle hlt <;>
    simp [Pool.Get.received, Pool.idleExpired, Pool.lifetimeExpired, closeRecord, connClose,
      deref, timeNow, logPrintln, ha, hi, hl, hidle, hlt, Pool.idleReads, not_lt.mpr]

/-- What `createNewConn` does with a factory `g`: one invocation; on success a
new record at the next free address, stamped with the next two readings of the
clock; on failure `(nil, ErrCreate)`. -/
theorem Pool.createNewConn_eq (clock : Nat → Time) (p : Pool) (g : Nat → ClientConn × error)
    (w : World) (hf : p.factory = some g) :
    p.createNewConn clock w
      = if (g w.calls).2 = none then
          .ok ((some w.heap.length, none),
            { heap := w.heap ++ [{ Conn := (g w.calls).1, createTime := clock w.ticks,
                                    UpdateTime := clock (w.ticks + 1) }],
              closed := w.closed, calls := w.calls + 1, ticks := w.ticks + 2,
              logs := w.logs })
        else
          .ok ((none, some Error.ErrCreate), { w with calls := w.calls + 1 }) := by
  by_cases h : (g w.calls).2 = none <;>
    simp [Pool.createNewConn, callFactory, hf, h, timeNow, alloc]

/-! ## Put -/

/-- C4: on an open pool with `Len() < capacity`, `Put(c, false)` of a non-nil
record returns nil, leaves the world (the close log in particular) untouched
and appends `c` to the idle queue, so `Len()` grows by one; and when the idle
queue was empty and `c` is not stale at the readings the checks of `Get` take,
the next `Get()` returns `c` with a nil error, closing nothing and without
invoking the factory. -/
theorem Put_with_room (clock : Nat → Time) (p : Pool) (ch : Chan) (w : World) (a : Nat)
    (hp : p.conns = some ch) (hopen : ch.closed = false) (hroom : p.Len < ch.cap) :
    p.Put (some a) false w
      = .ok (none, { p with conns := some { ch with buf := ch.buf ++ [some a] } }, w) ∧
    Pool.Len { p with conns := some { ch with buf := ch.buf ++ [some a] } } = p.Len + 1 ∧
    (ch.buf = [] → ∀ r, w.heap[a]? = some r →
      (∀ k, k ≤ 1 → ¬ p.staleAt r (clock (w.ticks + k))) →
      ∃ w', Pool.Get clock { p with conns := some { ch with buf := ch.buf ++ [some a] } } w
          = .ok ((some a, none), { p with conns := some { ch with buf := [] } }, w') ∧
        w'.closed = w.closed ∧ w'.calls = w.calls) := by
  have hlen : ch.buf.length < ch.cap := by simpa [Pool.Len, hp] using hroom
  refine ⟨?_, ?_, ?_⟩
  · simp [Pool.Put, hp, hopen, hlen]
  · simp [Pool.Len, hp]
  · intro hbuf r ha hfresh
    have h0 := hfresh 0 (by omega)
    have h1 := hfresh p.idleReads (by unfold Pool.idleReads; split <;> omega)
    simp only [Pool.staleAt, not_or, Nat.add_zero] at h0 h1
    have hget := Pool.Get.received_fresh clock { p with conns := some { ch with buf := [] } }
      w a r ha h0.1 h1.2
    rw [show Pool.Get.received clock { p with conns := some { ch with buf := [] } } (some a) w
        = Pool.Get clock { p with conns := some { ch with buf := ch.buf ++ [some a] } } w
        from by simp [Pool.Get, hbuf]] at hget
    exact ⟨_, hget, rfl, rfl⟩

/-- Witness of C4: a record put into an empty pool of capacity 2. -/
theorem Put_with_room_witness :
    Pool.Put ⟨some ⟨[], 2, false⟩, some exFactory, 0, 0⟩ (some 0) false
        ⟨[⟨10, 100, 101⟩], [], 1, 2, []⟩
      = .ok (none, ⟨some ⟨[some 0], 2, false⟩, some exFactory, 0, 0⟩,
          ⟨[⟨10, 100, 101⟩], [], 1, 2, []⟩) :=
  (Put_with_room exClock ⟨some ⟨[], 2, false⟩, some exFactory, 0, 0⟩ ⟨[], 2, false⟩
    ⟨[⟨10, 100, 101⟩], [], 1, 2, []⟩ 0 rfl rfl (by decide)).1

/-- C5: on an open pool with `Len() == capacity`, `Put(c, false)` of a non-nil
record calls `Close()` on the connection of `c` once (the close log grows by
exactly that entry), returns `ErrFull` and leaves the pool, hence the idle
queue and `Len()`, unchanged. -/
theorem Put_when_full (p : Pool) (ch : Chan) (w : World) (a : Nat) (r : poolConn)
    (hp : p.conns = some ch) (hopen : ch.closed = false) (hfull : p.Len = ch.cap)
    (ha : w.heap[a]? = some r) :
    p.Put (some a) false w
      = .ok (some Error.ErrFull, p,
          { w with closed := w.closed ++ [r.Conn],
                   logs := w.logs ++ ["pool is full, close conn"] }) ∧
    (w.closed ++ [r.Conn]).count r.Conn = w.closed.count r.Conn + 1 := by
  have hlen : ¬ ch.buf.length < ch.cap := by
    simp only [Pool.Len, hp] at hfull
    omega
  refine ⟨?_, ?_⟩
  · simp [Pool.Put, hp, hopen, hlen, closeRecord, deref, ha, connClose, logPrintln]
  · simp [List.count_append]

/-- Witness of C5: a second record put into a full pool of capacity 1. -/
theorem Put_when_full_witness :
    Pool.Put ⟨some ⟨[some 0], 1, false⟩, some exFactory, 0, 0⟩ (some 1) false
        ⟨[⟨10, 100, 101⟩, ⟨11, 102, 103⟩], [], 2, 4, []⟩
      = .ok (some Error.ErrFull, ⟨some ⟨[some 0], 1, false⟩, some exFactory, 0, 0⟩,
          ⟨[⟨10, 100, 101⟩, ⟨11, 102, 103⟩], [11], 2, 4, ["pool is full, close conn"]⟩) :=
  (Put_when_full ⟨some ⟨[some 0], 1, false⟩, some exFactory, 0, 0⟩ ⟨[some 0], 1, false⟩
    ⟨[⟨10, 100, 101⟩, ⟨11, 102, 103⟩], [], 2, 4, []⟩ 1 ⟨11, 102, 103⟩ rfl rfl rfl rfl).1

/-- C6: on a pool that is not closed, whether its idle queue is full or not,
`Put(c, true)` of a non-nil record calls `Close()` on the connection of `c`
once (the close log grows by exactly that entry), returns nil, and leaves the
pool unchanged: the idle queue is as before, `Len()` is as before and `c` was
not enqueued. -/
theorem Put_forceClose (p : Pool) (ch : Chan) (w : World) (a : Nat) (r : poolConn)
    (hp : p.conns = some ch) (ha : w.heap[a]? = some r) :
    p.Put (some a) true w = .ok (none, p, { w with closed := w.closed ++ [r.Conn] }) ∧
    (w.closed ++ [r.Conn]).count r.Conn = w.closed.count r.Conn + 1 := by
  refine ⟨?_, ?_⟩
  · simp [Pool.Put, hp, closeRecord, deref, ha, connClose]
  · simp [List.count_append]

/-- Witness of C6: a forced close on a full pool of capacity 1. -/
theorem Put_forceClose_witness :
    Pool.Put ⟨some ⟨[some 0], 1, false⟩, some exFactory, 0, 0⟩ (some 1) true
        ⟨[⟨10, 100, 101⟩, ⟨11, 102, 103⟩], [], 2, 4, []⟩
      = .ok (none, ⟨some ⟨[some 0], 1, false⟩, some exFactory, 0, 0⟩,
          ⟨[⟨10, 100, 101⟩, ⟨11, 102, 103⟩], [11], 2, 4, []⟩) :=
  (Put_forceClose ⟨some ⟨[some 0], 1, false⟩, some exFactory, 0, 0⟩ ⟨[some 0], 1, false⟩
    ⟨[⟨10, 100, 101⟩, ⟨11, 102, 103⟩], [], 2, 4, []⟩ 1 ⟨11, 102, 103⟩ rfl rfl).1

/-! ## Get: reuse, creation, eviction -/

/-- C7: when the head of the idle queue is a record that is not stale at the
readings the checks take, `Get()` returns that record and a nil error; the
record's `UpdateTime` is the clock reading taken at the assignment and its
`createTime` and connection are as before; the record is removed from the idle
queue, whose other entries stay (`Len()` drops by one); the close log and the
number of factory invocations are unchanged. -/
theorem Get_reuses_head (clock : Nat → Time) (p : Pool) (ch : Chan) (w : World) (a : Nat)
    (rest : List Ptr) (r : poolConn)
    (hp : p.conns = some ch) (hbuf : ch.buf = some a :: rest) (ha : w.heap[a]? = some r)
    (hfresh : ∀ k, k ≤ 1 → ¬ p.staleAt r (clock (w.ticks + k))) :
    p.Get clock w
      = .ok ((some a, none), { p with conns := some { ch with buf := rest } },
          { heap := w.heap.set a
              { r with UpdateTime := clock (w.ticks + p.idleReads + p.lifetimeReads) },
            closed := w.closed, calls := w.calls,
            ticks := w.ticks + p.idleReads + p.lifetimeReads + 1,
            logs := w.logs ++ ["get a connection"] }) ∧
    (w.heap.set a { r with UpdateTime := clock (w.ticks + p.idleReads + p.lifetimeReads) })[a]?
      = some { Conn := r.Conn, createTime := r.createTime,
               UpdateTime := clock (w.ticks + p.idleReads + p.lifetimeReads) } ∧
    Pool.Len { p with conns := some { ch with buf := rest } } + 1 = p.Len := by
  have h0 := hfresh 0 (by omega)
  have h1 := hfresh p.idleReads (by unfold Pool.idleReads; split <;> omega)
  simp only [Pool.staleAt, not_or, Nat.add_zero] at h0 h1
  have hlt : a < w.heap.length := by
    by_contra hge
    rw [List.getElem?_eq_none (by omega)] at ha
    exact Option.noConfusion ha
  refine ⟨?_, ?_, ?_⟩
  · simp only [Pool.Get, hp, hbuf]
    exact Pool.Get.received_fresh clock { p with conns := some { ch with buf := rest } }
      w a r ha h0.1 h1.2
  · simp [hlt]
  · simp [Pool.Len, hp, hbuf]

/-- Witness of C7: the first of two idle records is handed out again. -/
theorem Get_reuses_head_witness :
    Pool.Get exClock ⟨some ⟨[some 0, some 1], 5, false⟩, some exFactory, 50, 50⟩
        ⟨[⟨10, 100, 101⟩, ⟨11, 102, 103⟩], [], 2, 4, []⟩
      = .ok ((some 0, none), ⟨some ⟨[some 1], 5, false⟩, some exFactory, 50, 50⟩,
          ⟨[⟨10, 100, 106⟩, ⟨11, 102, 103⟩], [], 2, 7, ["get a connection"]⟩) :=
  (Get_reuses_head exClock ⟨some ⟨[some 0, some 1], 5, false⟩, some exFactory, 50, 50⟩
    ⟨[some 0, some 1], 5, false⟩ ⟨[⟨10, 100, 101⟩, ⟨11, 102, 103⟩], [], 2, 4, []⟩ 0 [some 1]
    ⟨10, 100, 101⟩ rfl rfl rfl
    (by
      intro k hk
      have hk' : k = 0 ∨ k = 1 := by omega
      rcases hk' with rfl | rfl <;> simp [Pool.staleAt, exClock])).1

/-- C8: on an open pool whose idle queue is empty, whatever the world holds
(however many records were handed out before), `Get()` invokes the factory
exactly once and leaves the pool, hence the empty idle queue, unchanged: when
the factory succeeds `Get` returns a nil error and a new record, at a fresh
address, that wraps the factory's connection; when the factory fails, with
whatever error, `Get` returns `(nil, ErrCreate)` and allocates nothing. -/
theorem Get_on_empty (clock : Nat → Time) (p : Pool) (ch : Chan) (w : World)
    (g : Nat → ClientConn × error)
    (hp : p.conns = some ch) (hopen : ch.closed = false) (hbuf : ch.buf = [])
    (hf : p.factory = some g) :
    ((g w.calls).2 = none →
      p.Get clock w
        = .ok ((some w.heap.length, none), p,
            { heap := w.heap ++ [{ Conn := (g w.calls).1, createTime := clock w.ticks,
                                    UpdateTime := clock (w.ticks + 1) }],
              closed := w.closed, calls := w.calls + 1, ticks := w.ticks + 2,
              logs := w.logs ++ ["new a connection"] })) ∧
    ((g w.calls).2 ≠ none →
      p.Get clock w
        = .ok ((none, some Error.ErrCreate), p,
            { w with calls := w.calls + 1, logs := w.logs ++ ["new a connection"] })) := by
  constructor <;> intro hg <;>
    simp [Pool.Get, hp, hopen, hbuf, Pool.createNewConn_eq clock p g _ hf, logPrintln, hg]

/-- Witness of C8: a `Get` on an empty pool while two records are checked
out. -/
theorem Get_on_empty_witness :
    Pool.Get exClock ⟨some ⟨[], 1, false⟩, some exFactory, 0, 0⟩
        ⟨[⟨10, 100, 101⟩, ⟨11, 102, 103⟩], [], 2, 4, []⟩
      = .ok ((some 2, none), ⟨some ⟨[], 1, false⟩, some exFactory, 0, 0⟩,
          ⟨[⟨10, 100, 101⟩, ⟨11, 102, 103⟩, ⟨12, 104, 105⟩], [], 3, 6,
            ["new a connection"]⟩) :=
  (Get_on_empty exClock ⟨some ⟨[], 1, false⟩, some exFactory, 0, 0⟩ ⟨[], 1, false⟩
    ⟨[⟨10, 100, 101⟩, ⟨11, 102, 103⟩], [], 2, 4, []⟩ exFactory rfl rfl rfl rfl).1 rfl

/-- C9, as stated, fails: a pool built by `NewPool` with an idle timeout of 10
holds one record last used at time 100; at time 110 the idle age is exactly
the idle timeout, the record is stale as the specification words it, and
`Get()` returns that very record with nothing closed and no further factory
invocation. -/
theorem Get_at_exact_timeout_counterexample :
    NewPool exMaxChan exClockStep (some exFactory) 1 1 10 0 exWorld
      = .ok ((some ⟨some ⟨[some 0], 1, false⟩, some exFactory, 10, 0⟩, none),
          ⟨[⟨10, 100, 100⟩], [], 1, 2, []⟩) ∧
    specStale 10 0 ⟨10, 100, 100⟩ 110 ∧
    Pool.Get exClockStep ⟨some ⟨[some 0], 1, false⟩, some exFactory, 10, 0⟩
        ⟨[⟨10, 100, 100⟩], [], 1, 2, []⟩
      = .ok ((some 0, none), ⟨some ⟨[], 1, false⟩, some exFactory, 10, 0⟩,
          ⟨[⟨10, 100, 110⟩], [], 1, 4, ["get a connection"]⟩) := by
  refine ⟨rfl, ?_, rfl⟩
  unfold specStale
  decide

/-- C9 (amended): let the head of the idle queue be a valid record `r`, and
let the factory be non-nil.  `Get()` treats `r` as stale exactly when the idle
timeout is positive and `lastUsedAt + idleTimeout` is strictly before the
reading of the idle check, or the lifetime is positive and
`createdAt + lifetime` is strictly before the reading of the lifetime check.
When that holds `Get` closes the connection of `r` once, invokes the factory
once and returns what `createNewConn` made, never `r`; when it does not hold
(in particular at an age equal to the duration, and always when both durations
are 0) `Get` returns `r` itself, closes nothing and does not invoke the
factory. -/
theorem Get_stale_iff (clock : Nat → Time) (p : Pool) (ch : Chan) (w : World) (a : Nat)
    (rest : List Ptr) (r : poolConn) (g : Nat → ClientConn × error)
    (hp : p.conns = some ch) (hbuf : ch.buf = some a :: rest) (ha : w.heap[a]? = some r)
    (hf : p.factory = some g) :
    (((0 < p.idleTimeout ∧ r.UpdateTime + p.idleTimeout < clock w.ticks) ∨
      (0 < p.lifetimeDuration ∧
        r.createTime + p.lifetimeDuration < clock (w.ticks + p.idleReads))) →
      ∃ res w', p.Get clock w
          = .ok (res, { p with conns := some { ch with buf := rest } }, w') ∧
        res = (if (g w.calls).2 = none then (some w.heap.length, none)
               else (none, some Error.ErrCreate)) ∧
        res.1 ≠ some a ∧ w'.closed = w.closed ++ [r.Conn] ∧ w'.calls = w.calls + 1) ∧
    (¬ ((0 < p.idleTimeout ∧ r.UpdateTime + p.idleTimeout < clock w.ticks) ∨
      (0 < p.lifetimeDuration ∧
        r.createTime + p.lifetimeDuration < clock (w.ticks + p.idleReads))) →
      ∃ w', p.Get clock w
          = .ok ((some a, none), { p with conns := some { ch with buf := rest } }, w') ∧
        w'.closed = w.closed ∧ w'.calls = w.calls) ∧
    (p.idleTimeout = 0 → p.lifetimeDuration = 0 →
      ∃ w', p.Get clock w
          = .ok ((some a, none), { p with conns := some { ch with buf := rest } }, w') ∧
        w'.closed = w.closed ∧ w'.calls = w.calls) := by
  have hlt : a < w.heap.length := by
    by_contra hge
    rw [List.getElem?_eq_none (by omega)] at ha
    exact Option.noConfusion ha
  have hne : w.heap.length ≠ a := by omega
  have hkeep : ¬ ((0 < p.idleTimeout ∧ r.UpdateTime + p.idleTimeout < clock w.ticks) ∨
      (0 < p.lifetimeDuration ∧
        r.createTime + p.lifetimeDuration < clock (w.ticks + p.idleReads))) →
      ∃ w', p.Get clock w
          = .ok ((some a, none), { p with conns := some { ch with buf := rest } }, w') ∧
        w'.closed = w.closed ∧ w'.calls = w.calls := by
    intro hS
    rw [not_or] at hS
    have hget := Pool.Get.received_fresh clock { p with conns := some { ch with buf := rest } }
      w a r ha hS.1 hS.2
    rw [show Pool.Get.received clock { p with conns := some { ch with buf := rest } } (some a) w
        = p.Get clock w from by simp [Pool.Get, hp, hbuf]] at hget
    exact ⟨_, hget, rfl, rfl⟩
  refine ⟨?_, hkeep, ?_⟩
  · intro hS
    by_cases hi : 0 < p.idleTimeout ∧ r.UpdateTime + p.idleTimeout < clock w.ticks
    · have hget := Pool.Get.received_idle clock
        { p with conns := some { ch with buf := rest } } w a r ha hi
      rw [show Pool.Get.received clock { p with conns := some { ch with buf := rest } }
          (some a) w = p.Get clock w from by simp [Pool.Get, hp, hbuf]] at hget
      rw [hget, Pool.createNewConn_eq clock { p with conns := some { ch with buf := rest } }
        g _ hf]
      by_cases hg : (g w.calls).2 = none
      · simp only [hg, ↓reduceIte]
        exact ⟨_, _, rfl, rfl, by simp [hne], rfl, rfl⟩
      · simp only [hg, ↓reduceIte]
        exact ⟨_, _, rfl, rfl, by simp, rfl, rfl⟩
    · have hl := hS.resolve_left hi
      have hget := Pool.Get.received_lifetime clock
        { p with conns := some { ch with buf := rest } } w a r ha hi hl
      rw [show Pool.Get.received clock { p with conns := some { ch with buf := rest } }
          (some a) w = p.Get clock w from by simp [Pool.Get, hp, hbuf]] at hget
      rw [hget, Pool.createNewConn_eq clock { p with conns := some { ch with buf := rest } }
        g _ hf]
      by_cases hg : (g w.calls).2 = none
      · simp only [hg, ↓reduceIte]
        exact ⟨_, _, rfl, rfl, by simp [hne], rfl, rfl⟩
      · simp only [hg, ↓reduceIte]
        exact ⟨_, _, rfl, rfl, by simp, rfl, rfl⟩
  · intro h1 h2
    apply hkeep
    rw [h1, h2]
    simp

/-- Witness of C9: with an idle timeout of 10, a record last used at 100 and
read at 111 is replaced. -/
theorem Get_stale_iff_witness :
    ∃ res w', Pool.Get (fun _ => 111) ⟨some ⟨[some 0], 1, false⟩, some exFactory, 10, 0⟩
          ⟨[⟨10, 100, 100⟩], [], 1, 2, []⟩
        = .ok (res, ⟨some ⟨[], 1, false⟩, some exFactory, 10, 0⟩, w') ∧
      res = (some 1, none) ∧ res.1 ≠ some 0 ∧ w'.closed = [10] ∧ w'.calls = 2 :=
  (Get_stale_iff (fun _ => 111) ⟨some ⟨[some 0], 1, false⟩, some exFactory, 10, 0⟩
    ⟨[some 0], 1, false⟩ ⟨[⟨10, 100, 100⟩], [], 1, 2, []⟩ 0 [] ⟨10, 100, 100⟩ exFactory
    rfl rfl rfl rfl).1 (Or.inl (by decide))

/-- C10: let the clock be non-decreasing, let the factory succeed, and let the
head of the idle queue be a record `r` (with `createTime <= UpdateTime`, as
every record the pool makes has) that, at the reading taken when `Get()`
starts, is last used strictly longer ago than a positive idle timeout, or
created strictly longer ago than a positive lifetime, however recently it was
used.  Then `Get()` calls `Close()` on the connection of `r` once and on
nothing else, removes only `r` from the idle queue (`Len()` drops by one, the
other entries stay), invokes the factory once, and returns with a nil error a
record at a fresh address, different from `r`, that wraps the factory's
connection and whose `createTime` is strictly later than that of `r`. -/
theorem Get_replaces_stale (clock : Nat → Time) (p : Pool) (ch : Chan) (w : World) (a : Nat)
    (rest : List Ptr) (r : poolConn) (g : Nat → ClientConn × error)
    (hp : p.conns = some ch) (hbuf : ch.buf = some a :: rest) (ha : w.heap[a]? = some r)
    (hf : p.factory = some g) (hg : (g w.calls).2 = none) (hmono : Monotone clock)
    (hinv : r.createTime ≤ r.UpdateTime) (hstale : p.staleAt r (clock w.ticks)) :
    ∃ (t1 t2 : Time) (n : Nat) (msg : String),
      p.Get clock w
        = .ok ((some w.heap.length, none), { p with conns := some { ch with buf := rest } },
            { heap := w.heap ++ [{ Conn := (g w.calls).1, createTime := t1, UpdateTime := t2 }],
              closed := w.closed ++ [r.Conn], calls := w.calls + 1, ticks := n,
              logs := w.logs ++ [msg] }) ∧
      r.createTime < t1 ∧ w.heap.length ≠ a ∧
      Pool.Len { p with conns := some { ch with buf := rest } } + 1 = p.Len := by
  have hlt : a < w.heap.length := by
    by_contra hge
    rw [List.getElem?_eq_none (by omega)] at ha
    exact Option.noConfusion ha
  have hne : w.heap.length ≠ a := by omega
  have hlen : Pool.Len { p with conns := some { ch with buf := rest } } + 1 = p.Len := by
    simp [Pool.Len, hp, hbuf]
  have hrecv : Pool.Get.received clock { p with conns := some { ch with buf := rest } }
      (some a) w = p.Get clock w := by simp [Pool.Get, hp, hbuf]
  by_cases hi : 0 < p.idleTimeout ∧ r.UpdateTime + p.idleTimeout < clock w.ticks
  · have hget := Pool.Get.received_idle clock
      { p with conns := some { ch with buf := rest } } w a r ha hi
    rw [hrecv, Pool.createNewConn_eq clock { p with conns := some { ch with buf := rest } }
      g _ hf] at hget
    simp only [hg, ↓reduceIte] at hget
    have h1 : clock w.ticks ≤ clock (w.ticks + 1) := hmono (Nat.le_add_right _ _)
    have h2 : r.createTime < clock (w.ticks + 1) := by
      have := hi.1
      have := hi.2
      linarith
    exact ⟨clock (w.ticks + 1), clock (w.ticks + 1 + 1), w.ticks + 1 + 2,
      "idle timeout, recreate", hget, h2, hne, hlen⟩
  · have hl : 0 < p.lifetimeDuration ∧
        r.createTime + p.lifetimeDuration < clock (w.ticks + p.idleReads) := by
      rcases hstale with h | h
      · exact absurd h hi
      · have h1 : clock w.ticks ≤ clock (w.ticks + p.idleReads) :=
          hmono (Nat.le_add_right _ _)
        exact ⟨h.1, lt_of_lt_of_le h.2 h1⟩
    have hget := Pool.Get.received_lifetime clock
      { p with conns := some { ch with buf := rest } } w a r ha hi hl
    rw [hrecv, Pool.createNewConn_eq clock { p with conns := some { ch with buf := rest } }
      g _ hf] at hget
    simp only [hg, ↓reduceIte] at hget
    have h1 : clock (w.ticks + p.idleReads) ≤ clock (w.ticks + p.idleReads + 1) :=
      hmono (Nat.le_add_right _ _)
    have h2 : r.createTime < clock (w.ticks + p.idleReads + 1) := by
      have := hl.1
      have := hl.2
      linarith
    exact ⟨clock (w.ticks + p.idleReads + 1), clock (w.ticks + p.idleReads + 1 + 1),
      w.ticks + p.idleReads + 1 + 2, "reach lifetime, recreate", hget, h2, hne, hlen⟩

/-- Witness of C10: a record created at 100 and used at 150 is replaced at
161, past a lifetime of 60, although the idle timeout of 50 has not run out. -/
theorem Get_replaces_stale_witness :
    ∃ (t1 t2 : Time) (n : Nat) (msg : String),
      Pool.Get (fun _ => 161) ⟨some ⟨[some 0, some 1], 5, false⟩, some exFactory, 50, 60⟩
          ⟨[⟨10, 100, 150⟩, ⟨11, 160, 160⟩], [], 2, 4, []⟩
        = .ok ((some 2, none), ⟨some ⟨[some 1], 5, false⟩, some exFactory, 50, 60⟩,
            ⟨[⟨10, 100, 150⟩, ⟨11, 160, 160⟩] ++ [⟨12, t1, t2⟩], [] ++ [10], 2 + 1, n,
              [] ++ [msg]⟩) ∧
      (100 : Time) < t1 ∧ 2 ≠ 0 ∧ 1 + 1 = 2 :=
  Get_replaces_stale (fun _ => 161) ⟨some ⟨[some 0, some 1], 5, false⟩, some exFactory, 50, 60⟩
    ⟨[some 0, some 1], 5, false⟩ ⟨[⟨10, 100, 150⟩, ⟨11, 160, 160⟩], [], 2, 4, []⟩ 0 [some 1]
    ⟨10, 100, 150⟩ exFactory rfl rfl rfl rfl rfl (fun _ _ _ => le_refl _) (by decide)
    (Or.inr (by decide))

/-! ## The record invariant -/

/-- The invariant survives any step that keeps the heap and does not turn the
clock back. -/
theorem heapOk_of_same_heap (clock : Nat → Time) (hmono : Monotone clock) (w w' : World)
    (hheap : w'.heap = w.heap) (hticks : w.ticks ≤ w'.ticks) (h : heapOk clock w) :
    heapOk clock w' := by
  intro r hr
  rw [hheap] at hr
  exact ⟨(h r hr).1, le_trans (h r hr).2 (hmono hticks)⟩

/-- The statement `conn.Conn.Close()` keeps the heap and the clock. -/
theorem closeRecord_frame (conn : Ptr) (w w' : World) (h : closeRecord conn w = .ok w') :
    w'.heap = w.heap ∧ w'.ticks = w.ticks := by
  unfold closeRecord at h
  split at h
  · exact Except.noConfusion h
  · cases h
    exact ⟨rfl, rfl⟩

/-- The idle check keeps the heap and at most advances the clock. -/
theorem Pool.idleExpired_frame (clock : Nat → Time) (p : Pool) (conn : Ptr) (w w' : World)
    (b : Bool) (h : p.idleExpired clock conn w = .ok (b, w')) :
    w'.heap = w.heap ∧ w.ticks ≤ w'.ticks := by
  unfold Pool.idleExpired at h
  split at h
  · split at h
    · exact Except.noConfusion h
    · cases h
      exact ⟨rfl, Nat.le_succ _⟩
  · cases h
    exact ⟨rfl, le_refl _⟩

/-- The lifetime check keeps the heap and at most advances the clock. -/
theorem Pool.lifetimeExpired_frame (clock : Nat → Time) (p : Pool) (conn : Ptr)
    (w w' : World) (b : Bool) (h : p.lifetimeExpired clock conn w = .ok (b, w')) :
    w'.heap = w.heap ∧ w.ticks ≤ w'.ticks := by
  unfold Pool.lifetimeExpired at h
  split at h
  · split at h
    · exact Except.noConfusion h
    · cases h
      exact ⟨rfl, Nat.le_succ _⟩
  · cases h
    exact ⟨rfl, le_refl _⟩

/-- Under a non-decreasing clock `createNewConn` keeps the invariant: the
record it allocates is stamped with two successive readings. -/
theorem Pool.createNewConn_heapOk (clock : Nat → Time) (hmono : Monotone clock) (p : Pool)
    (w w' : World) (res : Ptr × error) (h : p.createNewConn clock w = .ok (res, w'))
    (hok : heapOk clock w) : heapOk clock w' := by
  cases hf : p.factory with
  | none => simp [Pool.createNewConn, callFactory, hf] at h
  | some g =>
    rw [Pool.createNewConn_eq clock p g w hf] at h
    split at h
    · cases h
      intro r hr
      simp only [List.mem_append, List.mem_singleton] at hr
      rcases hr with hr | rfl
      · exact ⟨(hok r hr).1, le_trans (hok r hr).2 (hmono (Nat.le_add_right _ _))⟩
      · exact ⟨hmono (Nat.le_succ _), hmono (Nat.le_add_right _ _)⟩
    · cases h
      exact heapOk_of_same_heap clock hmono w _ rfl (le_refl _) hok

/-- Under a non-decreasing clock the assignment `conn.UpdateTime = time.Now()`
keeps the invariant. -/
theorem touch_heapOk (clock : Nat → Time) (hmono : Monotone clock) (conn : Ptr)
    (w w' : World) (h : touch clock conn w = .ok w') (hok : heapOk clock w) :
    heapOk clock w' := by
  unfold touch at h
  split at h
  · exact Except.noConfusion h
  · rename_i a
    split at h
    · exact Except.noConfusion h
    · rename_i r0 hr0
      cases h
      intro r hr
      simp only [timeNow] at hr ⊢
      have hr0mem : r0 ∈ w.heap := List.getElem?_mem hr0
      rcases List.mem_or_eq_of_mem_set hr with hr | rfl
      · exact ⟨(hok r hr).1, le_trans (hok r hr).2 (hmono (Nat.le_succ _))⟩
      · exact ⟨(hok r0 hr0mem).2, le_trans (hok r0 hr0mem).2 (hmono (Nat.le_succ _))⟩

/-- Writing a log line keeps the invariant. -/
theorem logPrintln_heapOk (clock : Nat → Time) (msg : String) (w : World)
    (hok : heapOk clock w) : heapOk clock (logPrintln msg w) :=
  hok

/-- Under a non-decreasing clock the first `case` of the `select` of `Get`
keeps the invariant. -/
theorem Pool.Get.received_heapOk (clock : Nat → Time) (hmono : Monotone clock) (p p' : Pool)
    (conn : Ptr) (w w' : World) (res : Ptr × error)
    (h : Pool.Get.received clock p conn w = .ok (res, p', w')) (hok : heapOk clock w) :
    heapOk clock w' := by
  unfold Pool.Get.received at h
  split at h
  · exact Except.noConfusion h
  · rename_i w1 hidle
    have hf1 := Pool.idleExpired_frame clock p conn w w1 true hidle
    have hok1 := heapOk_of_same_heap clock hmono w w1 hf1.1 hf1.2 hok
    split at h
    · exact Except.noConfusion h
    · rename_i w2 hclose
      have hf2 := closeRecord_frame conn _ w2 hclose
      have hok2 : heapOk clock w2 :=
        heapOk_of_same_heap clock hmono _ w2 hf2.1 (le_of_eq hf2.2.symm)
          (logPrintln_heapOk clock _ w1 hok1)
      split at h
      · exact Except.noConfusion h
      · rename_i r w3 hnew
        cases h
        exact Pool.createNewConn_heapOk clock hmono p w2 _ _ hnew hok2
  · rename_i w1 hidle
    have hf1 := Pool.idleExpired_frame clock p conn w w1 false hidle
    have hok1 := heapOk_of_same_heap clock hmono w w1 hf1.1 hf1.2 hok
    split at h
    · exact Except.noConfusion h
    · rename_i w2 hlife
      have hf2 := Pool.lifetimeExpired_frame clock p conn w1 w2 true hlife
      have hok2 := heapOk_of_same_heap clock hmono w1 w2 hf2.1 hf2.2 hok1
      split at h
      · exact Except.noConfusion h
      · rename_i w3 hclose
        have hf3 := closeRecord_frame conn _ w3 hclose
        have hok3 : heapOk clock w3 :=
          heapOk_of_same_heap clock hmono _ w3 hf3.1 (le_of_eq hf3.2.symm)
            (logPrintln_heapOk clock _ w2 hok2)
        split at h
        · exact Except.noConfusion h
        · rename_i r w4 hnew
          cases h
          exact Pool.createNewConn_heapOk clock hmono p w3 _ _ hnew hok3
    · rename_i w2 hlife
      have hf2 := Pool.lifetimeExpired_frame clock p conn w1 w2 false hlife
      have hok2 := heapOk_of_same_heap clock hmono w1 w2 hf2.1 hf2.2 hok1
      split at h
      · exact Except.noConfusion h
      · rename_i w3 htouch
        cases h
        exact touch_heapOk clock hmono conn _ _ htouch (logPrintln_heapOk clock _ w2 hok2)

/-- Under a non-decreasing clock `Get` keeps the invariant. -/
theorem Pool.Get_heapOk (clock : Nat → Time) (hmono : Monotone clock) (p p' : Pool)
    (w w' : World) (res : Ptr × error) (h : p.Get clock w = .ok (res, p', w'))
    (hok : heapOk clock w) : heapOk clock w' := by
  unfold Pool.Get at h
  split at h
  · cases h
    exact hok
  · split at h
    · split at h
      · cases h
        exact hok
      · split at h
        · exact Except.noConfusion h
        · rename_i r w1 hnew
          cases h
          exact Pool.createNewConn_heapOk clock hmono p _ _ _ hnew
            (logPrintln_heapOk clock _ w hok)
    · exact Pool.Get.received_heapOk clock hmono _ p' _ w w' res h hok

/-- Put keeps the heap and the clock, hence the invariant. -/
theorem Pool.Put_heapOk (clock : Nat → Time) (p p' : Pool) (conn : Ptr) (forceClose : Bool)
    (w w' : World) (err : error) (h : p.Put conn forceClose w = .ok (err, p', w'))
    (hok : heapOk clock w) : heapOk clock w' := by
  have hframe : w'.heap = w.heap ∧ w'.ticks = w.ticks := by
    unfold Pool.Put at h
    split at h
    · cases h
      exact ⟨rfl, rfl⟩
    · split at h
      · cases h
        exact ⟨rfl, rfl⟩
      · split at h
        · split at h
          · exact Except.noConfusion h
          · rename_i w1 hclose
            cases h
            exact closeRecord_frame conn w _ hclose
        · split at h
          · exact Except.noConfusion h
          · split at h
            · cases h
              exact ⟨rfl, rfl⟩
            · split at h
              · exact Except.noConfusion h
              · rename_i w1 hclose
                cases h
                exact closeRecord_frame conn (logPrintln "pool is full, close conn" w) _ hclose
  intro r hr
  rw [hframe.1] at hr
  rw [hframe.2]
  exact hok r hr

/-- The drain loop of `Close` keeps the heap and the clock. -/
theorem Pool.Close.drain_frame :
    ∀ (buf : List Ptr) (w w' : World), Pool.Close.drain buf w = .ok w' →
      w'.heap = w.heap ∧ w'.ticks = w.ticks := by
  intro buf
  induction buf with
  | nil =>
    intro w w' h
    cases h
    exact ⟨rfl, rfl⟩
  | cons c rest ih =>
    intro w w' h
    unfold Pool.Close.drain at h
    split at h
    · exact Except.noConfusion h
    · rename_i w1 hclose
      have h1 := closeRecord_frame c w w1 hclose
      have h2 := ih w1 w' h
      exact ⟨h2.1.trans h1.1, h2.2.trans h1.2⟩

/-- Close keeps the heap and the clock, hence the invariant. -/
theorem Pool.Close_heapOk (clock : Nat → Time) (p p' : Pool) (w w' : World) (err : error)
    (h : p.Close w = .ok (err, p', w')) (hok : heapOk clock w) : heapOk clock w' := by
  unfold Pool.Close at h
  split at h
  · exact Except.noConfusion h
  · split at h
    · exact Except.noConfusion h
    · split at h
      · exact Except.noConfusion h
      · rename_i w1 hdrain
        cases h
        have hframe := Pool.Close.drain_frame _ w w' hdrain
        intro r hr
        rw [hframe.1] at hr
        rw [hframe.2]
        exact hok r hr

/-- Under a non-decreasing clock every sequence of method calls keeps the
invariant. -/
theorem Pool.run_heapOk (clock : Nat → Time) (hmono : Monotone clock) :
    ∀ (calls : List Call) (p p' : Pool) (w w' : World) (rs : List Ret),
      Pool.run clock calls p w = .ok (rs, p', w') → heapOk clock w → heapOk clock w' := by
  intro calls
  induction calls with
  | nil =>
    intro p p' w w' rs h hok
    cases h
    exact hok
  | cons c cs ih =>
    intro p p' w w' rs h hok
    unfold Pool.run at h
    split at h
    · exact Except.noConfusion h
    · rename_i r p1 w1 hcall
      split at h
      · exact Except.noConfusion h
      · rename_i rs2 p2 w2 hrun
        cases h
        refine ih p1 _ w1 _ rs2 hrun ?_
        cases c with
        | Get =>
          simp only [Pool.call] at hcall
          split at hcall
          · exact Except.noConfusion hcall
          · rename_i c0 err0 p0 w0 hget
            cases hcall
            exact Pool.Get_heapOk clock hmono p _ w _ _ hget hok
        | Put conn fc =>
          simp only [Pool.call] at hcall
          split at hcall
          · exact Except.noConfusion hcall
          · rename_i err0 p0 w0 hput
            cases hcall
            exact Pool.Put_heapOk clock p _ conn fc w _ _ hput hok
        | Len =>
          simp only [Pool.call] at hcall
          cases hcall
          exact hok
        | Close =>
          simp only [Pool.call] at hcall
          split at hcall
          · exact Except.noConfusion hcall
          · rename_i err0 p0 w0 hclose
            cases hcall
            exact Pool.Close_heapOk clock p _ w _ _ hclose hok

/-- Under a non-decreasing clock the loop of `NewPool` keeps the invariant. -/
theorem NewPool.loop_heapOk (clock : Nat → Time) (hmono : Monotone clock) (factory : Factory) :
    ∀ (n : Nat) (ch : Chan) (w w' : World) (res : error × Chan),
      NewPool.loop clock factory n ch w = .ok (res, w') → heapOk clock w →
      heapOk clock w' := by
  intro n
  induction n with
  | zero =>
    intro ch w w' res h hok
    cases h
    exact hok
  | succ n ih =>
    intro ch w w' res h hok
    cases hf : factory with
    | none => simp [NewPool.loop, callFactory, hf] at h
    | some g =>
      simp only [NewPool.loop, callFactory, hf, timeNow, alloc] at h
      split at h
      · cases h
        exact heapOk_of_same_heap clock hmono w _ rfl (le_refl _) hok
      · split at h
        · exact Except.noConfusion h
        · split at h
          · rw [← hf] at h
            refine ih _ _ w' res h ?_
            intro r hr
            simp only [List.mem_append, List.mem_singleton] at hr
            rcases hr with hr | rfl
            · exact ⟨(hok r hr).1,
                le_trans (hok r hr).2 (hmono (show w.ticks ≤ w.ticks + 1 + 1 by omega))⟩
            · exact ⟨hmono (Nat.le_succ _),
                hmono (show w.ticks ≤ w.ticks + 1 + 1 by omega)⟩
          · exact Except.noConfusion h

/-- Under a non-decreasing clock `NewPool` keeps the invariant; started on an
empty heap it therefore establishes it. -/
theorem NewPool_heapOk (maxChan : Nat) (clock : Nat → Time) (hmono : Monotone clock) (factory : Factory)
    (len cap : Int) (idleTimeout lifetimeDuration : Duration) (w w' : World)
    (res : Option Pool × error)
    (h : NewPool maxChan clock factory len cap idleTimeout lifetimeDuration w = .ok (res, w'))
    (hok : heapOk clock w) : heapOk clock w' := by
  unfold NewPool at h
  split at h
  · cases h
    exact hok
  · split at h
    · exact Except.noConfusion h
    · split at h
      · exact Except.noConfusion h
      · rename_i err ch w1 hloop
        cases h
        exact NewPool.loop_heapOk clock hmono factory _ _ w _ _ hloop hok
      · rename_i ch w1 hloop
        cases h
        exact NewPool.loop_heapOk clock hmono factory _ _ w _ _ hloop hok

/-! ## Close twice, Put of nil -/

/-- C14: the code does not do what the claim asks.  On a pool built by
`NewPool` the first `Close()` returns nil and leaves the channel nil; the
second `Close()` then applies `close` to a nil channel, which panics: the
sequence of the two calls does not return. -/
theorem Close_twice_panics :
    NewPool exMaxChan exClock (some exFactory) 1 1 0 0 exWorld
      = .ok ((some ⟨some ⟨[some 0], 1, false⟩, some exFactory, 0, 0⟩, none),
          ⟨[⟨10, 100, 101⟩], [], 1, 2, []⟩) ∧
    Pool.run exClock [Call.Close] ⟨some ⟨[some 0], 1, false⟩, some exFactory, 0, 0⟩
        ⟨[⟨10, 100, 101⟩], [], 1, 2, []⟩
      = .ok ([Ret.Close none], ⟨none, some exFactory, 0, 0⟩,
          ⟨[⟨10, 100, 101⟩], [10], 1, 2, []⟩) ∧
    Pool.run exClock [Call.Close, Call.Close]
        ⟨some ⟨[some 0], 1, false⟩, some exFactory, 0, 0⟩ ⟨[⟨10, 100, 101⟩], [], 1, 2, []⟩
      = .error Abort.closeNilChan ∧
    Pool.Close ⟨none, some exFactory, 0, 0⟩ ⟨[⟨10, 100, 101⟩], [10], 1, 2, []⟩
      = .error Abort.closeNilChan := by
  refine ⟨rfl, rfl, rfl, rfl⟩

/-- C15: on a pool whose channel is non-nil, `Put(nil, forceClose)` returns nil
for either value of `forceClose` and leaves the pool and the world as they
were: nothing is closed, nothing is read through the nil pointer, the idle
queue is unchanged.  On a closed pool (nil channel) it returns `ErrClosed`,
the closed check coming first. -/
theorem Put_nil (p : Pool) (w : World) (forceClose : Bool) :
    (∀ ch, p.conns = some ch → p.Put none forceClose w = .ok (none, p, w)) ∧
    (p.conns = none → p.Put none forceClose w = .ok (some Error.ErrClosed, p, w)) := by
  constructor
  · intro ch hp
    simp [Pool.Put, hp]
  · intro hp
    simp [Pool.Put, hp]

/-- Witness of C15: `Put(nil, true)` on an open pool and on a closed pool. -/
theorem Put_nil_witness :
    Pool.Put ⟨some ⟨[some 0], 1, false⟩, some exFactory, 0, 0⟩ none true
        ⟨[⟨10, 100, 101⟩], [], 1, 2, []⟩
      = .ok (none, ⟨some ⟨[some 0], 1, false⟩, some exFactory, 0, 0⟩,
          ⟨[⟨10, 100, 101⟩], [], 1, 2, []⟩) ∧
    Pool.Put ⟨none, some exFactory, 0, 0⟩ none true ⟨[⟨10, 100, 101⟩], [10], 1, 2, []⟩
      = .ok (some Error.ErrClosed, ⟨none, some exFactory, 0, 0⟩,
          ⟨[⟨10, 100, 101⟩], [10], 1, 2, []⟩) :=
  ⟨(Put_nil ⟨some ⟨[some 0], 1, false⟩, some exFactory, 0, 0⟩
      ⟨[⟨10, 100, 101⟩], [], 1, 2, []⟩ true).1 _ rfl,
   (Put_nil ⟨none, some exFactory, 0, 0⟩ ⟨[⟨10, 100, 101⟩], [10], 1, 2, []⟩ true).2 rfl⟩

/-! ## Construction with a failing or a nil factory -/

/-- The loop of `NewPool` with a factory whose invocation number `j` from now
(counting from 0) is its first failure, with error `e`: the loop stops there
with `e`, after `j + 1` invocations and `j` allocations, and has called
`Close()` on nothing. -/
theorem NewPool.loop_fails (clock : Nat → Time) (g : Nat → ClientConn × error) (e : Error) :
    ∀ (j n : Nat) (ch : Chan) (w : World), j < n → ch.closed = false →
      ch.buf.length + j ≤ ch.cap →
      (∀ i, i < j → (g (w.calls + i)).2 = none) → (g (w.calls + j)).2 = some e →
      ∃ ch' w', NewPool.loop clock (some g) n ch w = .ok ((some e, ch'), w') ∧
        w'.calls = w.calls + j + 1 ∧ w'.closed = w.closed ∧
        w'.heap.length = w.heap.length + j := by
  intro j
  induction j with
  | zero =>
    intro n ch w hn _ _ _ hfail
    obtain ⟨m, rfl⟩ : ∃ m, n = m + 1 := ⟨n - 1, by omega⟩
    refine ⟨ch, { w with calls := w.calls + 1 }, ?_, rfl, rfl, rfl⟩
    simp only [Nat.add_zero] at hfail
    simp [NewPool.loop, callFactory, hfail]
  | succ j ih =>
    intro n ch w hn hc hroom hok hfail
    obtain ⟨m, rfl⟩ : ∃ m, n = m + 1 := ⟨n - 1, by omega⟩
    have h0 : (g w.calls).2 = none := by simpa using hok 0 (by omega)
    have hlt : ch.buf.length < ch.cap := by omega
    obtain ⟨ch', w', hrun, hcalls, hclosed, hheap⟩ :=
      ih m { ch with buf := ch.buf ++ [some (w.heap.length)] }
        { heap := w.heap ++ [{ Conn := (g w.calls).1, createTime := clock w.ticks,
                                UpdateTime := clock (w.ticks + 1) }],
          closed := w.closed, calls := w.calls + 1, ticks := w.ticks + 1 + 1, logs := w.logs }
        (by omega) hc (by simp; omega)
        (by
          intro i hi
          have := hok (i + 1) (by omega)
          simpa [Nat.add_assoc, Nat.add_comm 1 i] using this)
        (by simpa [Nat.add_assoc, Nat.add_comm 1 j] using hfail)
    refine ⟨ch', w', ?_, ?_, ?_, ?_⟩
    · simp only [NewPool.loop, callFactory, h0, timeNow, alloc, hlt]
      simpa [hc] using hrun
    · simp at hcalls; omega
    · simpa using hclosed
    · simp at hheap; omega

/-- C16, as stated, fails, in two ways.  With `len = 1`, `cap = 2^62` and a
factory whose first invocation fails, the `make` of line 39 panics before the
factory is invoked: `NewPool` does not return the factory's error.  With
`len = 1`, `cap = 1` and a factory that fails with the sentinel `ErrParam`,
`NewPool` returns that error as it is: the returned error is `ErrParam`. -/
theorem NewPool_factory_error_counterexample :
    ((0 : Int) < 1 ∧ (1 : Int) ≤ 2 ^ 62) ∧
    NewPool exMaxChan exClock (some exFactoryParam) 1 (2 ^ 62) 0 0 exWorld
      = .error Abort.makechan ∧
    NewPool exMaxChan exClock (some exFactoryParam) 1 1 0 0 exWorld
      = .ok ((none, some Error.ErrParam),
          { heap := [], closed := [], calls := 1, ticks := 0, logs := [] }) := by
  refine ⟨by decide, ?_, ?_⟩
  · have hguard : ¬ ((1 : Int) < 0 ∨ (2 : Int) ^ 62 ≤ 0 ∨ (1 : Int) > 2 ^ 62) := by decide
    have hmake : (2 : Int) ^ 62 < 0 ∨ ((exMaxChan : Nat) : Int) < 2 ^ 62 := by
      right
      unfold exMaxChan
      norm_num
    simp only [NewPool, hguard, if_false, makeChan, hmake, if_true]
  · have hguard : ¬ ((1 : Int) < 0 ∨ (1 : Int) ≤ 0 ∨ (1 : Int) > 1) := by decide
    have hmake : ¬ ((1 : Int) < 0 ∨ ((exMaxChan : Nat) : Int) < 1) := by
      unfold exMaxChan
      norm_num
    simp only [NewPool, hguard, if_false, makeChan, hmake]
    rfl

/-- C16 (amended): for `0 < len <= cap` with `cap` no larger than the largest
channel capacity the runtime accepts, when the factory's invocation number `j`
in `NewPool` (counting from 0, `j < len`) is its first failure, with error
`e`, `NewPool` returns no pool and exactly the error `e`, unwrapped, so that
the returned error is `ErrCreate` or `ErrParam` only when `e` itself is that
value; the factory was invoked `j + 1` times: not again after the failure. -/
theorem NewPool_factory_error (maxChan : Nat) (clock : Nat → Time)
    (g : Nat → ClientConn × error)
    (len cap : Int) (idleTimeout lifetimeDuration : Duration) (w : World) (j : Nat) (e : Error)
    (hlen : 0 < len) (hle : len ≤ cap) (hmax : cap ≤ maxChan) (hj : (j : Int) < len)
    (hok : ∀ i, i < j → (g (w.calls + i)).2 = none) (hfail : (g (w.calls + j)).2 = some e) :
    ∃ err w', NewPool maxChan clock (some g) len cap idleTimeout lifetimeDuration w
        = .ok ((none, err), w') ∧
      err = some e ∧
      (e ≠ Error.ErrCreate → err ≠ some Error.ErrCreate) ∧
      (e ≠ Error.ErrParam → err ≠ some Error.ErrParam) ∧
      w'.calls = w.calls + j + 1 := by
  obtain ⟨ch', w', hrun, hcalls, -, -⟩ :=
    NewPool.loop_fails clock g e j len.toNat { buf := [], cap := cap.toNat, closed := false } w
      (by omega) rfl (by simp; omega) hok hfail
  have hnot : ¬ (len < 0 ∨ cap ≤ 0 ∨ len > cap) := by omega
  refine ⟨some e, w', ?_, rfl, ?_, ?_, hcalls⟩
  · simp only [NewPool, hnot, if_false, makeChan_of_le maxChan cap (by omega) hmax, hrun]
  · intro hne h
    exact hne (Option.some.inj h)
  · intro hne h
    exact hne (Option.some.inj h)

/-- Witness of C16: the second of two invocations fails. -/
theorem NewPool_factory_error_witness :
    ∃ err w', NewPool exMaxChan exClock (some exFactoryOnce) 2 2 0 0 exWorld
        = .ok ((none, err), w') ∧
      err = some (Error.other 1) ∧
      (Error.other 1 ≠ Error.ErrCreate → err ≠ some Error.ErrCreate) ∧
      (Error.other 1 ≠ Error.ErrParam → err ≠ some Error.ErrParam) ∧
      w'.calls = 0 + 1 + 1 :=
  NewPool_factory_error exMaxChan exClock exFactoryOnce 2 2 0 0 exWorld 1 (Error.other 1)
    (by decide) (by decide) (by unfold exMaxChan; norm_num) (by decide)
    (by
      intro i hi
      have hi0 : i = 0 := by omega
      subst hi0
      rfl)
    rfl

/-- C17: the code does not do what the claim asks.  With a factory that
succeeds once (connection 10) and then fails, `NewPool` of length 2 returns no
pool and the factory's error, and the close log is still empty: connection 10
was created, is held by a record nobody can reach, and `Close()` was never
called on it. -/
theorem NewPool_leaks_created_conn :
    NewPool exMaxChan exClock (some exFactoryOnce) 2 2 0 0 exWorld
      = .ok ((none, some (Error.other 1)),
          { heap := [⟨10, 100, 101⟩], closed := [], calls := 2, ticks := 2, logs := [] }) := by
  rfl

/-- C18: the code does not do what the claim asks.  With a nil factory and
the valid sizes `len = 0`, `cap = 1`, `NewPool` returns a pool and a nil error,
not `ErrParam`; the first `Get()` on that pool then calls the nil function and
panics.  With a nil factory and the valid sizes `len = 1`, `cap = 1`,
`NewPool` itself calls the nil function and panics. -/
theorem NewPool_nil_factory :
    NewPool exMaxChan exClock none 0 1 0 0 exWorld
      = .ok ((some ⟨some ⟨[], 1, false⟩, none, 0, 0⟩, none), exWorld) ∧
    Pool.Get exClock ⟨some ⟨[], 1, false⟩, none, 0, 0⟩ exWorld = .error Abort.nilFunc ∧
    NewPool exMaxChan exClock none 1 1 0 0 exWorld = .error Abort.nilFunc := by
  refine ⟨rfl, rfl, rfl⟩

/-! ## How the methods change the pool -/

/-- The first `case` of the `select` of `Get` returns the pool it was given. -/
theorem Pool.Get.received_pool (clock : Nat → Time) (p p' : Pool) (conn : Ptr)
    (w w' : World) (res : Ptr × error)
    (h : Pool.Get.received clock p conn w = .ok (res, p', w')) : p' = p := by
  unfold Pool.Get.received at h
  split at h
  · exact Except.noConfusion h
  · split at h
    · exact Except.noConfusion h
    · split at h
      · exact Except.noConfusion h
      · cases h
        rfl
  · split at h
    · exact Except.noConfusion h
    · split at h
      · exact Except.noConfusion h
      · split at h
        · exact Except.noConfusion h
        · cases h
          rfl
    · split at h
      · exact Except.noConfusion h
      · cases h
        rfl

/-- A `Get` that returns leaves the pool as it was or removes the head of the
idle queue; it never adds an element. -/
theorem Pool.Get_pool (clock : Nat → Time) (p p' : Pool) (w w' : World) (res : Ptr × error)
    (h : p.Get clock w = .ok (res, p', w')) :
    p' = p ∨ ∃ ch c rest, p.conns = some ch ∧ ch.buf = c :: rest ∧
      p' = { p with conns := some { ch with buf := rest } } := by
  unfold Pool.Get at h
  split at h
  · cases h
    exact Or.inl rfl
  · rename_i ch hch
    split at h
    · split at h
      · cases h
        exact Or.inl rfl
      · split at h
        · exact Except.noConfusion h
        · cases h
          exact Or.inl rfl
    · rename_i c rest hbuf
      exact Or.inr ⟨ch, c, rest, hch, hbuf, Pool.Get.received_pool clock _ p' c w w' res h⟩

/-- A `Put` that returns leaves the pool as it was or, when `forceClose` is
false, the pointer is non-nil and the channel has room, appends the pointer to
the idle queue. -/
theorem Pool.Put_pool (p p' : Pool) (conn : Ptr) (forceClose : Bool) (w w' : World)
    (err : error) (h : p.Put conn forceClose w = .ok (err, p', w')) :
    p' = p ∨ ∃ ch, p.conns = some ch ∧ ch.buf.length < ch.cap ∧ forceClose = false ∧
      conn ≠ none ∧ err = none ∧
      p' = { p with conns := some { ch with buf := ch.buf ++ [conn] } } := by
  unfold Pool.Put at h
  split at h
  · cases h
    exact Or.inl rfl
  · rename_i ch hch
    split at h
    · cases h
      exact Or.inl rfl
    · rename_i hconn
      split at h
      · split at h
        · exact Except.noConfusion h
        · cases h
          exact Or.inl rfl
      · rename_i hfc
        split at h
        · exact Except.noConfusion h
        · split at h
          · rename_i hroom
            cases h
            exact Or.inr ⟨ch, hch, hroom, by simpa using hfc, hconn, rfl, rfl⟩
          · split at h
            · exact Except.noConfusion h
            · cases h
              exact Or.inl rfl

/-- A `Close` that returns leaves the channel nil. -/
theorem Pool.Close_pool (p p' : Pool) (w w' : World) (err : error)
    (h : p.Close w = .ok (err, p', w')) : p' = { p with conns := none } := by
  unfold Pool.Close at h
  split at h
  · exact Except.noConfusion h
  · split at h
    · exact Except.noConfusion h
    · split at h
      · exact Except.noConfusion h
      · cases h
        rfl

/-! ## The capacity bound -/

/-- The length of the idle queue of a pool within its capacity invariant. -/
theorem capOk_Len (c : Nat) (p : Pool) (h : capOk c p) : p.Len ≤ c := by
  unfold Pool.Len
  split
  · exact Nat.zero_le _
  · rename_i ch hch
    exact (h ch hch).2

/-- One method call keeps the capacity invariant, and a `Len` call reports a
length within the capacity. -/
theorem Pool.call_capOk (clock : Nat → Time) (c : Nat) (p p' : Pool) (w w' : World)
    (call : Call) (r : Ret) (h : p.call clock w call = .ok (r, p', w')) (hok : capOk c p) :
    capOk c p' ∧ ∀ n, r = Ret.Len n → n ≤ c := by
  cases call with
  | Get =>
    simp only [Pool.call] at h
    split at h
    · exact Except.noConfusion h
    · rename_i c0 err0 p0 w0 hget
      cases h
      refine ⟨?_, fun n hn => Ret.noConfusion hn⟩
      rcases Pool.Get_pool clock p _ w _ _ hget with rfl | ⟨ch, hd, rest, hch, hbuf, rfl⟩
      · exact hok
      · intro ch' hch'
        have hc := hok ch hch
        cases hch'
        refine ⟨hc.1, ?_⟩
        have : ch.buf.length = rest.length + 1 := by rw [hbuf]; rfl
        show rest.length ≤ c
        omega
  | Put conn fc =>
    simp only [Pool.call] at h
    split at h
    · exact Except.noConfusion h
    · rename_i err0 p0 w0 hput
      cases h
      refine ⟨?_, fun n hn => Ret.noConfusion hn⟩
      rcases Pool.Put_pool p _ conn fc w _ _ hput with rfl | ⟨ch, hch, hroom, -, -, -, rfl⟩
      · exact hok
      · intro ch' hch'
        have hc := hok ch hch
        cases hch'
        refine ⟨hc.1, ?_⟩
        show (ch.buf ++ [conn]).length ≤ c
        rw [List.length_append, List.length_singleton]
        omega
  | Len =>
    simp only [Pool.call] at h
    cases h
    refine ⟨hok, fun n hn => ?_⟩
    cases hn
    exact capOk_Len c p hok
  | Close =>
    simp only [Pool.call] at h
    split at h
    · exact Except.noConfusion h
    · rename_i err0 p0 w0 hclose
      cases h
      refine ⟨?_, fun n hn => Ret.noConfusion hn⟩
      rw [Pool.Close_pool p _ w _ _ hclose]
      intro ch' hch'
      exact Option.noConfusion hch'

/-- Every sequence of method calls keeps the capacity invariant, and every
`Len` call in it reports a length within the capacity. -/
theorem Pool.run_capOk (clock : Nat → Time) (c : Nat) :
    ∀ (calls : List Call) (p p' : Pool) (w w' : World) (rs : List Ret),
      Pool.run clock calls p w = .ok (rs, p', w') → capOk c p →
      capOk c p' ∧ ∀ n, Ret.Len n ∈ rs → n ≤ c := by
  intro calls
  induction calls with
  | nil =>
    intro p p' w w' rs h hok
    cases h
    exact ⟨hok, fun n hn => absurd hn (List.not_mem_nil _)⟩
  | cons call cs ih =>
    intro p p' w w' rs h hok
    unfold Pool.run at h
    split at h
    · exact Except.noConfusion h
    · rename_i r p1 w1 hcall
      split at h
      · exact Except.noConfusion h
      · rename_i rs2 p2 w2 hrun
        cases h
        have h1 := Pool.call_capOk clock c p p1 w w1 call r hcall hok
        have h2 := ih p1 _ w1 _ rs2 hrun h1.1
        refine ⟨h2.1, fun n hn => ?_⟩
        rcases List.mem_cons.mp hn with hn | hn
        · exact h1.2 n hn.symm
        · exact h2.2 n hn

/-- The loop of `NewPool` keeps the capacity of the channel and never buffers
more than the capacity. -/
theorem NewPool.loop_capOk (clock : Nat → Time) (factory : Factory) :
    ∀ (n : Nat) (ch ch' : Chan) (w w' : World) (err : error),
      NewPool.loop clock factory n ch w = .ok ((err, ch'), w') →
      ch.buf.length ≤ ch.cap → ch'.cap = ch.cap ∧ ch'.buf.length ≤ ch'.cap := by
  intro n
  induction n with
  | zero =>
    intro ch ch' w w' err h hle
    cases h
    exact ⟨rfl, hle⟩
  | succ n ih =>
    intro ch ch' w w' err h hle
    cases hf : factory with
    | none => simp [NewPool.loop, callFactory, hf] at h
    | some g =>
      simp only [NewPool.loop, callFactory, hf, timeNow, alloc] at h
      split at h
      · cases h
        exact ⟨rfl, hle⟩
      · split at h
        · exact Except.noConfusion h
        · split at h
          · rename_i hroom
            rw [← hf] at h
            have := ih _ ch' _ w' err h (by
              show (ch.buf ++ [some w.heap.length]).length ≤ ch.cap
              rw [List.length_append, List.length_singleton]
              omega)
            exact this
          · exact Except.noConfusion h

/-- A pool returned by `NewPool` for the capacity `cap` is within the capacity
invariant for `cap`. -/
theorem NewPool_capOk (maxChan : Nat) (clock : Nat → Time) (factory : Factory)
    (len cap : Int)
    (idleTimeout lifetimeDuration : Duration) (w w' : World) (p : Pool) (err : error)
    (h : NewPool maxChan clock factory len cap idleTimeout lifetimeDuration w
      = .ok ((some p, err), w')) : capOk cap.toNat p := by
  unfold NewPool at h
  split at h
  · cases h
  · split at h
    · exact Except.noConfusion h
    · rename_i ch0 hmk
      have hch0 := (makeChan_ok maxChan cap ch0 hmk).1
      subst hch0
      split at h
      · exact Except.noConfusion h
      · cases h
      · rename_i ch w1 hloop
        cases h
        intro ch' hch'
        cases hch'
        have := NewPool.loop_capOk clock factory _ _ _ w _ _ hloop (Nat.zero_le _)
        have hcap : ch.cap = cap.toNat := this.1
        exact ⟨hcap, hcap ▸ this.2⟩

/-- C11: in every state reached from a successful `NewPool(factory, len, cap,
_, _)` by a sequence of `Get`, `Put`, `Len` and `Close` calls that all return
(so with at most one `Close`), the idle queue holds between 0 and `cap`
records, and every `Len()` call of the sequence reported at most `cap`. -/
theorem Len_within_cap (maxChan : Nat) (clock : Nat → Time) (factory : Factory) (len cap : Int)
    (idleTimeout lifetimeDuration : Duration) (w0 w1 w : World) (p0 p : Pool)
    (calls : List Call) (rs : List Ret)
    (hnew : NewPool maxChan clock factory len cap idleTimeout lifetimeDuration w0
      = .ok ((some p0, none), w1))
    (hrun : Pool.run clock calls p0 w1 = .ok (rs, p, w)) :
    (0 : Int) ≤ p.Len ∧ (p.Len : Int) ≤ cap ∧ ∀ n, Ret.Len n ∈ rs → (n : Int) ≤ cap := by
  have hcap : 0 < cap := by
    by_contra hneg
    have hbad : len < 0 ∨ cap ≤ 0 ∨ len > cap := Or.inr (Or.inl (by omega))
    simp [NewPool, hbad] at hnew
  have h0 := NewPool_capOk maxChan clock factory len cap idleTimeout lifetimeDuration w0 w1 p0 none hnew
  have h1 := Pool.run_capOk clock cap.toNat calls p0 p w1 w rs hrun h0
  have hlen := capOk_Len cap.toNat p h1.1
  refine ⟨by omega, by omega, fun n hn => ?_⟩
  have := h1.2 n hn
  omega

/-- Witness of C11: a pool of capacity 1 with one idle record; the record is
taken and put back, the length is read and the pool is closed. -/
theorem Len_within_cap_witness :
    (0 : Int) ≤ Pool.Len ⟨none, some exFactory, 0, 0⟩ ∧
    (Pool.Len ⟨none, some exFactory, 0, 0⟩ : Int) ≤ 1 ∧ ((1 : Nat) : Int) ≤ 1 :=
  have h := Len_within_cap exMaxChan exClock (some exFactory) 1 1 0 0 exWorld
    ⟨[⟨10, 100, 101⟩], [], 1, 2, []⟩ ⟨[⟨10, 100, 102⟩], [10], 1, 3, ["get a connection"]⟩
    ⟨some ⟨[some 0], 1, false⟩, some exFactory, 0, 0⟩ ⟨none, some exFactory, 0, 0⟩
    [Call.Get, Call.Put (some 0) false, Call.Len, Call.Close]
    [Ret.Get (some 0) none, Ret.Put none, Ret.Len 1, Ret.Close none]
    rfl rfl
  ⟨h.1, h.2.1, h.2.2 1 (by decide)⟩

/-! ## Ownership of a record -/

/-- A record returned by `createNewConn` sits at the address that was the
next free one, and that address is allocated afterwards. -/
theorem Pool.createNewConn_ptr (clock : Nat → Time) (p : Pool) (w w' : World) (a : Nat)
    (err : error) (h : p.createNewConn clock w = .ok ((some a, err), w')) :
    a = w.heap.length ∧ a < w'.heap.length := by
  cases hf : p.factory with
  | none => simp [Pool.createNewConn, callFactory, hf] at h
  | some g =>
    rw [Pool.createNewConn_eq clock p g w hf] at h
    split at h
    · cases h
      exact ⟨rfl, by simp⟩
    · cases h

/-- The assignment `conn.UpdateTime = time.Now()` succeeds only through a
non-nil pointer to an allocated record, and allocates nothing. -/
theorem touch_valid (clock : Nat → Time) (conn : Ptr) (w w' : World)
    (h : touch clock conn w = .ok w') :
    ∃ a, conn = some a ∧ a < w.heap.length ∧ w'.heap.length = w.heap.length := by
  unfold touch at h
  split at h
  · exact Except.noConfusion h
  · rename_i a
    split at h
    · exact Except.noConfusion h
    · rename_i r hr
      cases h
      have hlt : a < w.heap.length := by
        by_contra hge
        rw [List.getElem?_eq_none (by omega)] at hr
        exact Option.noConfusion hr
      exact ⟨a, rfl, hlt, by simp [timeNow]⟩

/-- The pointer returned by the first `case` of the `select` of `Get` is the
received pointer or the address that was the next free one; in both cases it
addresses an allocated record afterwards. -/
theorem Pool.Get.received_ptr (clock : Nat → Time) (p p' : Pool) (conn : Ptr) (w w' : World)
    (a : Nat) (err : error)
    (h : Pool.Get.received clock p conn w = .ok ((some a, err), p', w')) :
    (conn = some a ∨ a = w.heap.length) ∧ a < w'.heap.length := by
  unfold Pool.Get.received at h
  split at h
  · exact Except.noConfusion h
  · rename_i w1 hidle
    have hf1 := Pool.idleExpired_frame clock p conn w w1 true hidle
    split at h
    · exact Except.noConfusion h
    · rename_i w2 hclose
      have hf2 := closeRecord_frame conn _ w2 hclose
      split at h
      · exact Except.noConfusion h
      · rename_i r w3 hnew
        cases h
        have hptr := Pool.createNewConn_ptr clock p w2 _ a err hnew
        have hheap : w2.heap = w.heap := by rw [hf2.1]; exact hf1.1
        exact ⟨Or.inr (by rw [hptr.1, hheap]), hptr.2⟩
  · rename_i w1 hidle
    have hf1 := Pool.idleExpired_frame clock p conn w w1 false hidle
    split at h
    · exact Except.noConfusion h
    · rename_i w2 hlife
      have hf2 := Pool.lifetimeExpired_frame clock p conn w1 w2 true hlife
      split at h
      · exact Except.noConfusion h
      · rename_i w3 hclose
        have hf3 := closeRecord_frame conn _ w3 hclose
        split at h
        · exact Except.noConfusion h
        · rename_i r w4 hnew
          cases h
          have hptr := Pool.createNewConn_ptr clock p w3 _ a err hnew
          have hheap : w3.heap = w.heap := by rw [hf3.1]; exact hf2.1.trans hf1.1
          exact ⟨Or.inr (by rw [hptr.1, hheap]), hptr.2⟩
    · rename_i w2 hlife
      split at h
      · exact Except.noConfusion h
      · rename_i w3 htouch
        cases h
        obtain ⟨b', hb', hlt, hlen⟩ := touch_valid clock (some a) _ _ htouch
        cases hb'
        exact ⟨Or.inl rfl, by rw [hlen]; exact hlt⟩

/-- A `Get` that returns a record: the idle queue was empty, stays empty and
the record is new, or the idle queue lost its head and the record is that
head or is new.  The record is allocated afterwards. -/
theorem Pool.Get_ptr (clock : Nat → Time) (p p' : Pool) (w w' : World) (a : Nat)
    (err : error) (h : p.Get clock w = .ok ((some a, err), p', w')) :
    a < w'.heap.length ∧
    ((p.idle = [] ∧ p'.idle = [] ∧ a = w.heap.length) ∨
      ∃ c, p.idle = c :: p'.idle ∧ (c = some a ∨ a = w.heap.length)) := by
  unfold Pool.Get at h
  split at h
  · cases h
  · rename_i ch hch
    split at h
    · rename_i hbuf
      split at h
      · cases h
      · split at h
        · exact Except.noConfusion h
        · rename_i r w1 hnew
          cases h
          have hptr := Pool.createNewConn_ptr clock p _ _ a err hnew
          exact ⟨hptr.2, Or.inl ⟨by simp [Pool.idle, hch, hbuf],
            by simp [Pool.idle, hch, hbuf], hptr.1⟩⟩
    · rename_i c rest hbuf
      have hp' := Pool.Get.received_pool clock _ p' c w w' _ h
      have hptr := Pool.Get.received_ptr clock _ p' c w w' a err h
      subst hp'
      exact ⟨hptr.2, Or.inr ⟨c, by simp [Pool.idle, hch, hbuf], hptr.1⟩⟩

/-- One method call puts a pointer into the idle queue only if it is
`Put(c, false)` of that pointer. -/
theorem Pool.call_idle (clock : Nat → Time) (p p' : Pool) (w w' : World) (call : Call)
    (r : Ret) (h : p.call clock w call = .ok (r, p', w')) :
    ∀ c ∈ p'.idle, c ∈ p.idle ∨ call = Call.Put c false := by
  intro c hc
  cases call with
  | Get =>
    simp only [Pool.call] at h
    split at h
    · exact Except.noConfusion h
    · rename_i c0 err0 p0 w0 hget
      cases h
      rcases Pool.Get_pool clock p _ w _ _ hget with rfl | ⟨ch, hd, rest, hch, hbuf, rfl⟩
      · exact Or.inl hc
      · left
        simp only [Pool.idle, hch, hbuf] at hc ⊢
        exact List.mem_cons_of_mem _ hc
  | Put conn fc =>
    simp only [Pool.call] at h
    split at h
    · exact Except.noConfusion h
    · rename_i err0 p0 w0 hput
      cases h
      rcases Pool.Put_pool p _ conn fc w _ _ hput with rfl | ⟨ch, hch, -, hfc, -, -, rfl⟩
      · exact Or.inl hc
      · simp only [Pool.idle, hch, List.mem_append, List.mem_singleton] at hc ⊢
        rcases hc with hc | rfl
        · exact Or.inl hc
        · right
          rw [hfc]
  | Len =>
    simp only [Pool.call] at h
    cases h
    exact Or.inl hc
  | Close =>
    simp only [Pool.call] at h
    split at h
    · exact Except.noConfusion h
    · rename_i err0 p0 w0 hclose
      cases h
      rw [Pool.Close_pool p _ w _ _ hclose] at hc
      simp [Pool.idle] at hc

/-- After a sequence of method calls every pointer in the idle queue was
there before or was put there by a `Put(c, false)` of the sequence. -/
theorem Pool.run_idle (clock : Nat → Time) :
    ∀ (calls : List Call) (p p' : Pool) (w w' : World) (rs : List Ret),
      Pool.run clock calls p w = .ok (rs, p', w') →
      ∀ c ∈ p'.idle, c ∈ p.idle ∨ Call.Put c false ∈ calls := by
  intro calls
  induction calls with
  | nil =>
    intro p p' w w' rs h c hc
    cases h
    exact Or.inl hc
  | cons call cs ih =>
    intro p p' w w' rs h c hc
    unfold Pool.run at h
    split at h
    · exact Except.noConfusion h
    · rename_i r p1 w1 hcall
      split at h
      · exact Except.noConfusion h
      · rename_i rs2 p2 w2 hrun
        cases h
        rcases ih p1 _ w1 _ rs2 hrun c hc with h1 | h1
        · rcases Pool.call_idle clock p p1 w w1 call r hcall c h1 with h2 | h2
          · exact Or.inl h2
          · exact Or.inr (by rw [h2]; exact List.mem_cons_self _ _)
        · exact Or.inr (List.mem_cons_of_mem _ h1)

/-- C13: on a pool whose idle queue holds pairwise-distinct valid records, a
successful `Get()` returns a record that is not in the idle queue afterwards,
whether it was the head of the queue or newly created; the idle queue still
holds pairwise-distinct records; and after any later sequence of method calls
the record is in the idle queue only if one of those calls was a `Put` of
that record with `forceClose = false`. -/
theorem Get_takes_ownership (clock : Nat → Time) (p p' : Pool) (w w' : World) (a : Nat)
    (hnodup : p.idle.Nodup) (hvalid : validQueue w.heap p.idle)
    (hget : p.Get clock w = .ok ((some a, none), p', w')) :
    some a ∉ p'.idle ∧ p'.idle.Nodup ∧
    ∀ (calls : List Call) (rs : List Ret) (p'' : Pool) (w'' : World),
      Pool.run clock calls p' w' = .ok (rs, p'', w'') →
      some a ∈ p''.idle → Call.Put (some a) false ∈ calls := by
  have hptr := (Pool.Get_ptr clock p p' w w' a none hget).2
  have hnot : some a ∉ p'.idle := by
    rcases hptr with ⟨-, hnil, -⟩ | ⟨c, hc, hor⟩
    · rw [hnil]
      exact List.not_mem_nil _
    · rw [hc] at hnodup hvalid
      rcases hor with rfl | rfl
      · exact (List.nodup_cons.mp hnodup).1
      · intro hmem
        obtain ⟨b, hb, hlt⟩ := hvalid _ (List.mem_cons_of_mem _ hmem)
        cases hb
        exact Nat.lt_irrefl _ hlt
  have hnd : p'.idle.Nodup := by
    rcases hptr with ⟨-, hnil, -⟩ | ⟨c, hc, -⟩
    · rw [hnil]
      exact List.nodup_nil
    · rw [hc] at hnodup
      exact (List.nodup_cons.mp hnodup).2
  refine ⟨hnot, hnd, ?_⟩
  intro calls rs p'' w'' hrun hmem
  rcases Pool.run_idle clock calls p' p'' w' w'' rs hrun _ hmem with h | h
  · exact absurd h hnot
  · exact h

/-- Witness of C13: the first of two idle records is taken; it is back in the
idle queue after a `Put` of it. -/
theorem Get_takes_ownership_witness :
    some 0 ∉ Pool.idle ⟨some ⟨[some 1], 5, false⟩, some exFactory, 0, 0⟩ ∧
    (Pool.idle ⟨some ⟨[some 1], 5, false⟩, some exFactory, 0, 0⟩).Nodup ∧
    Call.Put (some 0) false ∈ [Call.Len, Call.Put (some 0) false] :=
  have h := Get_takes_ownership exClock
    ⟨some ⟨[some 0, some 1], 5, false⟩, some exFactory, 0, 0⟩
    ⟨some ⟨[some 1], 5, false⟩, some exFactory, 0, 0⟩
    ⟨[⟨10, 100, 101⟩, ⟨11, 102, 103⟩], [], 2, 4, []⟩
    ⟨[⟨10, 100, 104⟩, ⟨11, 102, 103⟩], [], 2, 5, ["get a connection"]⟩ 0
    (by decide) (by simp [validQueue, Pool.idle]) rfl
  ⟨h.1, h.2.1, h.2.2 [Call.Len, Call.Put (some 0) false] [Ret.Len 1, Ret.Put none]
    ⟨some ⟨[some 1, some 0], 5, false⟩, some exFactory, 0, 0⟩
    ⟨[⟨10, 100, 104⟩, ⟨11, 102, 103⟩], [], 2, 5, ["get a connection"]⟩ rfl (by decide)⟩

/-! ## Creation times are kept -/

/-- An address that reads a record is allocated. -/
theorem lt_length_of_getElem? (heap : List poolConn) (a : Nat) (r : poolConn)
    (h : heap[a]? = some r) : a < heap.length := by
  by_contra hge
  rw [List.getElem?_eq_none (by omega)] at h
  exact Option.noConfusion h

/-- Nothing changes from a world to itself. -/
theorem createKept_refl (w : World) : createKept w w :=
  fun _ r h => ⟨r, h, rfl, rfl⟩

/-- Keeping creation times composes. -/
theorem createKept_trans (w1 w2 w3 : World) (h12 : createKept w1 w2) (h23 : createKept w2 w3) :
    createKept w1 w3 := by
  intro a r h
  obtain ⟨r2, h2, hc2, hn2⟩ := h12 a r h
  obtain ⟨r3, h3, hc3, hn3⟩ := h23 a r2 h2
  exact ⟨r3, h3, hc3.trans hc2, hn3.trans hn2⟩

/-- A step that keeps the heap keeps the creation times. -/
theorem createKept_of_same_heap (w w' : World) (h : w'.heap = w.heap) : createKept w w' := by
  intro a r hr
  exact ⟨r, by rw [h]; exact hr, rfl, rfl⟩

/-- The method `createNewConn` only appends a record to the heap. -/
theorem Pool.createNewConn_createKept (clock : Nat → Time) (p : Pool) (w w' : World)
    (res : Ptr × error) (h : p.createNewConn clock w = .ok (res, w')) : createKept w w' := by
  cases hf : p.factory with
  | none => simp [Pool.createNewConn, callFactory, hf] at h
  | some g =>
    rw [Pool.createNewConn_eq clock p g w hf] at h
    split at h
    · cases h
      intro a r hr
      have hlt := lt_length_of_getElem? w.heap a r hr
      exact ⟨r, by rw [List.getElem?_append_left hlt]; exact hr, rfl, rfl⟩
    · cases h
      exact createKept_of_same_heap w _ rfl

/-- The assignment `conn.UpdateTime = time.Now()` writes `UpdateTime` only. -/
theorem touch_createKept (clock : Nat → Time) (conn : Ptr) (w w' : World)
    (h : touch clock conn w = .ok w') : createKept w w' := by
  unfold touch at h
  split at h
  · exact Except.noConfusion h
  · rename_i a
    split at h
    · exact Except.noConfusion h
    · rename_i r0 hr0
      cases h
      intro b r hr
      simp only [timeNow]
      by_cases hab : a = b
      · subst hab
        have hlt := lt_length_of_getElem? w.heap a r hr
        have hrr : r0 = r := Option.some.inj (hr0.symm.trans hr)
        subst hrr
        exact ⟨_, List.getElem?_set_self hlt, rfl, rfl⟩
      · exact ⟨r, by rw [List.getElem?_set_ne hab]; exact hr, rfl, rfl⟩

/-- The first `case` of the `select` of `Get` keeps the creation times. -/
theorem Pool.Get.received_createKept (clock : Nat → Time) (p p' : Pool) (conn : Ptr)
    (w w' : World) (res : Ptr × error)
    (h : Pool.Get.received clock p conn w = .ok (res, p', w')) : createKept w w' := by
  unfold Pool.Get.received at h
  split at h
  · exact Except.noConfusion h
  · rename_i w1 hidle
    have hf1 := Pool.idleExpired_frame clock p conn w w1 true hidle
    split at h
    · exact Except.noConfusion h
    · rename_i w2 hclose
      have hf2 := closeRecord_frame conn _ w2 hclose
      split at h
      · exact Except.noConfusion h
      · rename_i r w3 hnew
        cases h
        have hheap : w2.heap = w.heap := by rw [hf2.1]; exact hf1.1
        exact createKept_trans w w2 _ (createKept_of_same_heap w w2 hheap)
          (Pool.createNewConn_createKept clock p w2 _ _ hnew)
  · rename_i w1 hidle
    have hf1 := Pool.idleExpired_frame clock p conn w w1 false hidle
    split at h
    · exact Except.noConfusion h
    · rename_i w2 hlife
      have hf2 := Pool.lifetimeExpired_frame clock p conn w1 w2 true hlife
      split at h
      · exact Except.noConfusion h
      · rename_i w3 hclose
        have hf3 := closeRecord_frame conn _ w3 hclose
        split at h
        · exact Except.noConfusion h
        · rename_i r w4 hnew
          cases h
          have hheap : w3.heap = w.heap := by rw [hf3.1]; exact hf2.1.trans hf1.1
          exact createKept_trans w w3 _ (createKept_of_same_heap w w3 hheap)
            (Pool.createNewConn_createKept clock p w3 _ _ hnew)
    · rename_i w2 hlife
      have hf2 := Pool.lifetimeExpired_frame clock p conn w1 w2 false hlife
      split at h
      · exact Except.noConfusion h
      · rename_i w3 htouch
        cases h
        have hheap : (logPrintln "get a connection" w2).heap = w.heap := hf2.1.trans hf1.1
        exact createKept_trans w _ _ (createKept_of_same_heap w _ hheap)
          (touch_createKept clock conn _ _ htouch)

/-- The method `Get` keeps the creation times. -/
theorem Pool.Get_createKept (clock : Nat → Time) (p p' : Pool) (w w' : World)
    (res : Ptr × error) (h : p.Get clock w = .ok (res, p', w')) : createKept w w' := by
  unfold Pool.Get at h
  split at h
  · cases h
    exact createKept_refl w
  · split at h
    · split at h
      · cases h
        exact createKept_refl w
      · split at h
        · exact Except.noConfusion h
        · rename_i r w1 hnew
          cases h
          exact createKept_trans w (logPrintln "new a connection" w) _
            (createKept_of_same_heap w _ rfl)
            (Pool.createNewConn_createKept clock p _ _ _ hnew)
    · exact Pool.Get.received_createKept clock _ p' _ w w' res h

/-- The method `Put` keeps the heap. -/
theorem Pool.Put_heap (p p' : Pool) (conn : Ptr) (forceClose : Bool) (w w' : World)
    (err : error) (h : p.Put conn forceClose w = .ok (err, p', w')) : w'.heap = w.heap := by
  unfold Pool.Put at h
  split at h
  · cases h
    rfl
  · split at h
    · cases h
      rfl
    · split at h
      · split at h
        · exact Except.noConfusion h
        · rename_i w1 hclose
          cases h
          exact (closeRecord_frame conn w _ hclose).1
      · split at h
        · exact Except.noConfusion h
        · split at h
          · cases h
            rfl
          · split at h
            · exact Except.noConfusion h
            · rename_i w1 hclose
              cases h
              exact (closeRecord_frame conn (logPrintln "pool is full, close conn" w) _
                hclose).1

/-- The method `Close` keeps the heap. -/
theorem Pool.Close_heap (p p' : Pool) (w w' : World) (err : error)
    (h : p.Close w = .ok (err, p', w')) : w'.heap = w.heap := by
  unfold Pool.Close at h
  split at h
  · exact Except.noConfusion h
  · split at h
    · exact Except.noConfusion h
    · split at h
      · exact Except.noConfusion h
      · rename_i w1 hdrain
        cases h
        exact (Pool.Close.drain_frame _ w _ hdrain).1

/-- Every sequence of method calls keeps the creation times. -/
theorem Pool.run_createKept (clock : Nat → Time) :
    ∀ (calls : List Call) (p p' : Pool) (w w' : World) (rs : List Ret),
      Pool.run clock calls p w = .ok (rs, p', w') → createKept w w' := by
  intro calls
  induction calls with
  | nil =>
    intro p p' w w' rs h
    cases h
    exact createKept_refl w
  | cons c cs ih =>
    intro p p' w w' rs h
    unfold Pool.run at h
    split at h
    · exact Except.noConfusion h
    · rename_i r p1 w1 hcall
      split at h
      · exact Except.noConfusion h
      · rename_i rs2 p2 w2 hrun
        cases h
        refine createKept_trans w w1 _ ?_ (ih p1 _ w1 _ rs2 hrun)
        cases c with
        | Get =>
          simp only [Pool.call] at hcall
          split at hcall
          · exact Except.noConfusion hcall
          · rename_i c0 err0 p0 w0 hget
            cases hcall
            exact Pool.Get_createKept clock p _ w _ _ hget
        | Put conn fc =>
          simp only [Pool.call] at hcall
          split at hcall
          · exact Except.noConfusion hcall
          · rename_i err0 p0 w0 hput
            cases hcall
            exact createKept_of_same_heap w _ (Pool.Put_heap p _ conn fc w _ _ hput)
        | Len =>
          simp only [Pool.call] at hcall
          cases hcall
          exact createKept_refl w
        | Close =>
          simp only [Pool.call] at hcall
          split at hcall
          · exact Except.noConfusion hcall
          · rename_i err0 p0 w0 hclose
            cases hcall
            exact createKept_of_same_heap w _ (Pool.Close_heap p _ w _ _ hclose)

/-- The loop of `NewPool` only appends records to the heap. -/
theorem NewPool.loop_createKept (clock : Nat → Time) (factory : Factory) :
    ∀ (n : Nat) (ch : Chan) (w w' : World) (res : error × Chan),
      NewPool.loop clock factory n ch w = .ok (res, w') → createKept w w' := by
  intro n
  induction n with
  | zero =>
    intro ch w w' res h
    cases h
    exact createKept_refl w
  | succ n ih =>
    intro ch w w' res h
    cases hf : factory with
    | none => simp [NewPool.loop, callFactory, hf] at h
    | some g =>
      simp only [NewPool.loop, callFactory, hf, timeNow, alloc] at h
      split at h
      · cases h
        exact createKept_of_same_heap w _ rfl
      · split at h
        · exact Except.noConfusion h
        · split at h
          · rw [← hf] at h
            refine createKept_trans w _ w' ?_ (ih _ _ w' res h)
            intro a r hr
            have hlt := lt_length_of_getElem? w.heap a r hr
            exact ⟨r, by
              show (w.heap ++ _)[a]? = some r
              rw [List.getElem?_append_left hlt]
              exact hr, rfl, rfl⟩
          · exact Except.noConfusion h

/-- The function `NewPool` only appends records to the heap. -/
theorem NewPool_createKept (maxChan : Nat) (clock : Nat → Time) (factory : Factory)
    (len cap : Int)
    (idleTimeout lifetimeDuration : Duration) (w w' : World) (res : Option Pool × error)
    (h : NewPool maxChan clock factory len cap idleTimeout lifetimeDuration w
      = .ok (res, w')) :
    createKept w w' := by
  unfold NewPool at h
  split at h
  · cases h
    exact createKept_refl w
  · split at h
    · exact Except.noConfusion h
    · split at h
      · exact Except.noConfusion h
      · rename_i err ch w1 hloop
        cases h
        exact NewPool.loop_createKept clock factory _ _ w _ _ hloop
      · rename_i ch w1 hloop
        cases h
        exact NewPool.loop_createKept clock factory _ _ w _ _ hloop

/-- C12: assume a non-decreasing clock and a start world whose records (if
any) satisfy the record invariant.  After a successful `NewPool`, and after
any sequence of method calls on its pool, every allocated record has
`createTime <= UpdateTime`: the records `NewPool` created, the records in the
idle queue, and the record a further `Get()` returns, be it reused or newly
created.  No step changes the `createTime` of a record once it is allocated:
`NewPool` keeps those of the start world, the call sequence keeps those made
by `NewPool`, and every further call sequence keeps those of the state
reached. -/
theorem createTime_le_UpdateTime (maxChan : Nat) (clock : Nat → Time) (hmono : Monotone clock)
    (factory : Factory) (len cap : Int) (idleTimeout lifetimeDuration : Duration)
    (w0 w1 w : World) (p0 p : Pool) (calls : List Call) (rs : List Ret)
    (hw0 : heapOk clock w0)
    (hnew : NewPool maxChan clock factory len cap idleTimeout lifetimeDuration w0
      = .ok ((some p0, none), w1))
    (hrun : Pool.run clock calls p0 w1 = .ok (rs, p, w)) :
    (∀ r ∈ w1.heap, r.createTime ≤ r.UpdateTime) ∧
    (∀ r ∈ w.heap, r.createTime ≤ r.UpdateTime) ∧
    (∀ c ∈ p.idle, ∀ (a : Nat) (r : poolConn), c = some a → w.heap[a]? = some r →
      r.createTime ≤ r.UpdateTime) ∧
    (∀ (a : Nat) (err : error) (p' : Pool) (w' : World),
      p.Get clock w = .ok ((some a, err), p', w') →
      ∃ r : poolConn, w'.heap[a]? = some r ∧ r.createTime ≤ r.UpdateTime) ∧
    createKept w0 w1 ∧ createKept w1 w ∧
    (∀ (calls2 : List Call) (rs2 : List Ret) (p2 : Pool) (w2 : World),
      Pool.run clock calls2 p w = .ok (rs2, p2, w2) → createKept w w2) := by
  have h1 := NewPool_heapOk maxChan clock hmono factory len cap idleTimeout lifetimeDuration w0 w1 _
    hnew hw0
  have h2 := Pool.run_heapOk clock hmono calls p0 p w1 w rs hrun h1
  refine ⟨fun r hr => (h1 r hr).1, fun r hr => (h2 r hr).1, ?_, ?_,
    NewPool_createKept maxChan clock factory len cap idleTimeout lifetimeDuration w0 w1 _ hnew,
    Pool.run_createKept clock calls p0 p w1 w rs hrun, ?_⟩
  · intro c _ a r _ hr
    exact (h2 r (List.getElem?_mem hr)).1
  · intro a err p' w' hget
    have h3 := Pool.Get_heapOk clock hmono p p' w w' _ hget h2
    have hlt := (Pool.Get_ptr clock p p' w w' a err hget).1
    exact ⟨w'.heap.get ⟨a, hlt⟩, List.getElem?_eq_getElem hlt,
      (h3 _ (List.get_mem _ _ _)).1⟩
  · intro calls2 rs2 p2 w2 hrun2
    exact Pool.run_createKept clock calls2 p p2 w w2 rs2 hrun2

/-- Witness of C12: `NewPool` of length 1 on the empty world, then one
`Get()` that reuses the record. -/
theorem createTime_le_UpdateTime_witness :
    (⟨10, 100, 101⟩ : poolConn).createTime ≤ (⟨10, 100, 101⟩ : poolConn).UpdateTime ∧
    (⟨10, 100, 102⟩ : poolConn).createTime ≤ (⟨10, 100, 102⟩ : poolConn).UpdateTime ∧
    createKept ⟨[⟨10, 100, 101⟩], [], 1, 2, []⟩
      ⟨[⟨10, 100, 102⟩], [], 1, 3, ["get a connection"]⟩ :=
  have h := createTime_le_UpdateTime exMaxChan exClock
    (by
      intro i j hij
      have hle : i ≤ j := hij
      show (100 : Int) + (i : Int) ≤ 100 + (j : Int)
      omega)
    (some exFactory) 1 1 0 0 exWorld ⟨[⟨10, 100, 101⟩], [], 1, 2, []⟩
    ⟨[⟨10, 100, 102⟩], [], 1, 3, ["get a connection"]⟩
    ⟨some ⟨[some 0], 1, false⟩, some exFactory, 0, 0⟩
    ⟨some ⟨[], 1, false⟩, some exFactory, 0, 0⟩ [Call.Get] [Ret.Get (some 0) none]
    (fun r hr => absurd hr (List.not_mem_nil r)) rfl rfl
  ⟨h.1 _ (List.mem_singleton.mpr rfl), h.2.1 _ (List.mem_singleton.mpr rfl), h.2.2.2.2.2.1⟩

/-! ## Counting acquisitions -/

/-- C19, as stated, fails: on a pool built by `NewPool` without eviction, a
`Get()` that creates connection 10, a `Put` of the record and a second
`Get()` that reuses it are two successful `Get` calls, while the factory was
invoked once and created one connection. -/
theorem Get_reuse_counterexample :
    NewPool exMaxChan exClock (some exFactory) 0 1 0 0 exWorld
      = .ok ((some ⟨some ⟨[], 1, false⟩, some exFactory, 0, 0⟩, none), exWorld) ∧
    Pool.run exClock [Call.Get, Call.Put (some 0) false, Call.Get]
        ⟨some ⟨[], 1, false⟩, some exFactory, 0, 0⟩ exWorld
      = .ok ([Ret.Get (some 0) none, Ret.Put none, Ret.Get (some 0) none],
          ⟨some ⟨[], 1, false⟩, some exFactory, 0, 0⟩,
          ⟨[⟨10, 100, 102⟩], [], 1, 3, ["new a connection", "get a connection"]⟩) ∧
    countGot [Ret.Get (some 0) none, Ret.Put none, Ret.Get (some 0) none] = 2 ∧
    created exFactory 1 - created exFactory 0 = 1 := by
  refine ⟨rfl, rfl, rfl, rfl⟩

/-- The statement `conn.Conn.Close()` invokes no factory. -/
theorem closeRecord_calls (conn : Ptr) (w w' : World) (h : closeRecord conn w = .ok w') :
    w'.calls = w.calls := by
  unfold closeRecord at h
  split at h
  · exact Except.noConfusion h
  · cases h
    rfl

/-- The assignment `conn.UpdateTime = time.Now()` invokes no factory. -/
theorem touch_calls (clock : Nat → Time) (conn : Ptr) (w w' : World)
    (h : touch clock conn w = .ok w') : w'.calls = w.calls := by
  unfold touch at h
  split at h
  · exact Except.noConfusion h
  · split at h
    · exact Except.noConfusion h
    · cases h
      rfl

/-- The idle queue of a pool has the length `Len` reports. -/
theorem Pool.idle_length (p : Pool) : p.idle.length = p.Len := by
  unfold Pool.idle Pool.Len
  split <;> rfl

/-- The balance of one `Get` without eviction: what it adds to the successful
`Get`s and to the idle queue equals what it adds to the connections created. -/
theorem Pool.Get_balance (clock : Nat → Time) (g : Nat → ClientConn × error) (p p' : Pool)
    (w w' : World) (c : Ptr) (err : error)
    (hf : p.factory = some g) (hi : p.idleTimeout = 0) (hl : p.lifetimeDuration = 0)
    (h : p.Get clock w = .ok ((c, err), p', w')) :
    (if (Ret.Get c err).isGot then 1 else 0) + p'.Len + created g w.calls
      = created g w'.calls + p.Len := by
  unfold Pool.Get at h
  split at h
  · cases h
    simp [Ret.isGot, Nat.add_comm]
  · rename_i ch hch
    split at h
    · rename_i hbuf
      split at h
      · cases h
        simp [Ret.isGot, Nat.add_comm]
      · rw [Pool.createNewConn_eq clock p g _ hf] at h
        by_cases hg : (g w.calls).2 = none
        · simp only [logPrintln, hg, ↓reduceIte] at h
          cases h
          simp only [Ret.isGot, ↓reduceIte, created, hg]
          omega
        · simp only [logPrintln, hg, ↓reduceIte] at h
          cases h
          simp only [Ret.isGot, created, hg, ↓reduceIte]
          simp
          omega
    · rename_i hd rest hbuf
      have hi0 : ¬ (0 : Int) > 0 := by decide
      simp only [Pool.Get.received, Pool.idleExpired, Pool.lifetimeExpired, hi, hl, hi0,
        ↓reduceIte] at h
      split at h
      · exact Except.noConfusion h
      · rename_i w3 htouch
        cases h
        have hc := touch_calls clock _ _ _ htouch
        simp only [logPrintln] at hc
        simp only [Ret.isGot, ↓reduceIte, Pool.Len, hch, hbuf, List.length_cons, hc]
        omega

/-- The balance of one `Put`: the idle queue grows by one exactly when the
`Put` returned its record to it, and no factory is invoked. -/
theorem Pool.Put_balance (p p' : Pool) (conn : Ptr) (forceClose : Bool) (w w' : World)
    (err : error) (h : p.Put conn forceClose w = .ok (err, p', w')) :
    p'.Len = p.Len + (if (Call.Put conn forceClose).enqueued (Ret.Put err) then 1 else 0) ∧
    w'.calls = w.calls := by
  unfold Pool.Put at h
  split at h
  · cases h
    simp [Call.enqueued]
  · rename_i ch hch
    split at h
    · rename_i hnil
      cases h
      subst hnil
      simp [Call.enqueued]
    · rename_i hconn
      obtain ⟨a, rfl⟩ : ∃ a, conn = some a := Option.ne_none_iff_exists'.mp hconn
      split at h
      · rename_i hfc
        split at h
        · exact Except.noConfusion h
        · rename_i w1 hclose
          cases h
          have hfc' : forceClose = true := hfc
          subst hfc'
          exact ⟨by simp [Call.enqueued], closeRecord_calls _ _ _ hclose⟩
      · rename_i hfc
        have hfc' : forceClose = false := by simpa using hfc
        subst hfc'
        split at h
        · exact Except.noConfusion h
        · split at h
          · cases h
            simp [Call.enqueued, Pool.Len, hch]
          · split at h
            · exact Except.noConfusion h
            · rename_i w1 hclose
              cases h
              exact ⟨by simp [Call.enqueued], by
                rw [closeRecord_calls _ _ _ hclose]
                rfl⟩

/-- The balance of a sequence of `Get` and `Put` calls without eviction:
successful `Get`s plus idle records plus connections created before equals
connections created by the end plus idle records before plus records returned
by `Put`.  The factory and the two durations of the pool are as before. -/
theorem Pool.run_balance (clock : Nat → Time) (g : Nat → ClientConn × error) :
    ∀ (calls : List Call) (p p' : Pool) (w w' : World) (rs : List Ret),
      p.factory = some g → p.idleTimeout = 0 → p.lifetimeDuration = 0 →
      (∀ c ∈ calls, c.isGetOrPut = true) →
      Pool.run clock calls p w = .ok (rs, p', w') →
      countGot rs + p'.Len + created g w.calls
        = created g w'.calls + p.Len + countEnqueued calls rs := by
  intro calls
  induction calls with
  | nil =>
    intro p p' w w' rs _ _ _ _ h
    cases h
    simp [countGot, countEnqueued, Nat.add_comm]
  | cons call cs ih =>
    intro p p' w w' rs hf hi hl hcalls h
    have hcall0 := hcalls call (List.mem_cons_self _ _)
    have hcs : ∀ c ∈ cs, c.isGetOrPut = true := fun c hc => hcalls c (List.mem_cons_of_mem _ hc)
    unfold Pool.run at h
    split at h
    · exact Except.noConfusion h
    · rename_i r p1 w1 hcall
      split at h
      · exact Except.noConfusion h
      · rename_i rs2 p2 w2 hrun
        cases h
        cases call with
        | Get =>
          simp only [Pool.call] at hcall
          split at hcall
          · exact Except.noConfusion hcall
          · rename_i c0 err0 p0 w0 hget
            cases hcall
            have hb := Pool.Get_balance clock g p _ w _ c0 err0 hf hi hl hget
            have hp1 : p1.factory = some g ∧ p1.idleTimeout = 0 ∧ p1.lifetimeDuration = 0 := by
              rcases Pool.Get_pool clock p _ w _ _ hget with rfl | ⟨ch, hd, rest, -, -, rfl⟩
              · exact ⟨hf, hi, hl⟩
              · exact ⟨hf, hi, hl⟩
            have hr := ih p1 _ w1 _ rs2 hp1.1 hp1.2.1 hp1.2.2 hcs hrun
            simp only [countGot, List.countP_cons, countEnqueued, Call.enqueued] at hr ⊢
            simp only [Bool.false_eq_true, ↓reduceIte] at hr ⊢
            omega
        | Put conn fc =>
          simp only [Pool.call] at hcall
          split at hcall
          · exact Except.noConfusion hcall
          · rename_i err0 p0 w0 hput
            cases hcall
            have hb := Pool.Put_balance p _ conn fc w _ err0 hput
            have hp1 : p1.factory = some g ∧ p1.idleTimeout = 0 ∧ p1.lifetimeDuration = 0 := by
              rcases Pool.Put_pool p _ conn fc w _ _ hput with rfl | ⟨ch, -, -, -, -, -, rfl⟩
              · exact ⟨hf, hi, hl⟩
              · exact ⟨hf, hi, hl⟩
            have hr := ih p1 _ w1 _ rs2 hp1.1 hp1.2.1 hp1.2.2 hcs hrun
            rw [hb.2] at hr
            simp only [countGot, List.countP_cons, countEnqueued, Ret.isGot] at hr ⊢
            simp only [Bool.false_eq_true, ↓reduceIte] at hr ⊢
            omega
        | Len => simp [Call.isGetOrPut] at hcall0
        | Close => simp [Call.isGetOrPut] at hcall0

/-- The balance of the loop of `NewPool` when it finishes without error: every
invocation created a connection and sent one record. -/
theorem NewPool.loop_balance (clock : Nat → Time) (g : Nat → ClientConn × error) :
    ∀ (n : Nat) (ch ch' : Chan) (w w' : World),
      NewPool.loop clock (some g) n ch w = .ok ((none, ch'), w') →
      ch'.buf.length + created g w.calls = created g w'.calls + ch.buf.length := by
  intro n
  induction n with
  | zero =>
    intro ch ch' w w' h
    cases h
    exact Nat.add_comm _ _
  | succ n ih =>
    intro ch ch' w w' h
    simp only [NewPool.loop, callFactory, timeNow, alloc] at h
    split at h
    · rename_i herr
      simp only [Except.ok.injEq, Prod.mk.injEq] at h
      exact absurd h.1.1 herr
    · rename_i herr
      have hg : (g w.calls).2 = none := by simpa using herr
      split at h
      · exact Except.noConfusion h
      · split at h
        · have hr := ih _ ch' _ w' h
          simp only [List.length_append, List.length_singleton, created, hg, ↓reduceIte] at hr
          omega
        · exact Except.noConfusion h

/-- A sequence of calls that returns also returns when cut after its first
`k` calls, with the first `k` results. -/
theorem Pool.run_take (clock : Nat → Time) :
    ∀ (calls : List Call) (p p' : Pool) (w w' : World) (rs : List Ret),
      Pool.run clock calls p w = .ok (rs, p', w') →
      ∀ k, ∃ pk wk, Pool.run clock (calls.take k) p w = .ok (rs.take k, pk, wk) := by
  intro calls
  induction calls with
  | nil =>
    intro p p' w w' rs h k
    cases h
    exact ⟨p, w, by simp [Pool.run]⟩
  | cons call cs ih =>
    intro p p' w w' rs h k
    cases k with
    | zero => exact ⟨p, w, by simp [Pool.run]⟩
    | succ k =>
      unfold Pool.run at h
      split at h
      · exact Except.noConfusion h
      · rename_i r p1 w1 hcall
        split at h
        · exact Except.noConfusion h
        · rename_i rs2 p2 w2 hrun
          cases h
          obtain ⟨pk, wk, hk⟩ := ih p1 _ w1 _ rs2 hrun k
          exact ⟨pk, wk, by simp [Pool.run, hcall, hk]⟩

/-- A pool returned by `NewPool` carries the factory and the durations it was
given, and holds one idle record for every connection the factory created. -/
theorem NewPool_balance (maxChan : Nat) (clock : Nat → Time) (g : Nat → ClientConn × error)
    (len cap : Int)
    (idleTimeout lifetimeDuration : Duration) (w w' : World) (p : Pool)
    (h : NewPool maxChan clock (some g) len cap idleTimeout lifetimeDuration w
      = .ok ((some p, none), w')) :
    p.factory = some g ∧ p.idleTimeout = idleTimeout ∧
    p.lifetimeDuration = lifetimeDuration ∧
    p.Len + created g w.calls = created g w'.calls := by
  unfold NewPool at h
  split at h
  · cases h
  · split at h
    · exact Except.noConfusion h
    · rename_i ch0 hmk
      have hch0 := (makeChan_ok maxChan cap ch0 hmk).1
      subst hch0
      split at h
      · exact Except.noConfusion h
      · cases h
      · rename_i ch w1 hloop
        cases h
        have hb := NewPool.loop_balance clock g _ _ _ w _ hloop
        refine ⟨rfl, rfl, rfl, ?_⟩
        simp only [Pool.Len]
        simpa using hb

/-- C19 (amended): on a pool built by `NewPool` with `idleTimeout = 0` and
`lifetime = 0`, at every point of every sequence of `Get` and `Put` calls the
number of successful `Get` calls so far does not exceed the number of
connections the factory created so far (in `NewPool` and in `Get`) plus the
number of `Put` calls so far that returned a record to the idle queue; the
difference is the number of idle records. -/
theorem Get_count_bound (maxChan : Nat) (clock : Nat → Time) (g : Nat → ClientConn × error) (len cap : Int)
    (w0 w1 w : World) (p0 p : Pool) (calls : List Call) (rs : List Ret)
    (hnew : NewPool maxChan clock (some g) len cap 0 0 w0 = .ok ((some p0, none), w1))
    (hcalls : ∀ c ∈ calls, c.isGetOrPut = true)
    (hrun : Pool.run clock calls p0 w1 = .ok (rs, p, w)) :
    ∀ k, ∃ pk wk, Pool.run clock (calls.take k) p0 w1 = .ok (rs.take k, pk, wk) ∧
      countGot (rs.take k) + pk.Len + created g w0.calls
        = created g wk.calls + countEnqueued (calls.take k) (rs.take k) ∧
      countGot (rs.take k) + created g w0.calls
        ≤ created g wk.calls + countEnqueued (calls.take k) (rs.take k) := by
  intro k
  obtain ⟨pk, wk, hk⟩ := Pool.run_take clock calls p0 p w1 w rs hrun k
  obtain ⟨hf, hi, hl, hb0⟩ := NewPool_balance maxChan clock g len cap 0 0 w0 w1 p0 hnew
  have hb := Pool.run_balance clock g (calls.take k) p0 pk w1 wk (rs.take k) hf hi hl
    (fun c hc => hcalls c (List.mem_of_mem_take hc)) hk
  refine ⟨pk, wk, hk, ?_, ?_⟩ <;> omega

/-- Witness of C19: one connection created, two successful `Get`s, one `Put`
that returned the record. -/
theorem Get_count_bound_witness :
    ∃ pk wk, Pool.run exClock ([Call.Get, Call.Put (some 0) false, Call.Get].take 3)
        ⟨some ⟨[], 1, false⟩, some exFactory, 0, 0⟩ exWorld
        = .ok ([Ret.Get (some 0) none, Ret.Put none, Ret.Get (some 0) none].take 3, pk, wk) ∧
      countGot ([Ret.Get (some 0) none, Ret.Put none, Ret.Get (some 0) none].take 3)
          + pk.Len + created exFactory exWorld.calls
        = created exFactory wk.calls
          + countEnqueued ([Call.Get, Call.Put (some 0) false, Call.Get].take 3)
              ([Ret.Get (some 0) none, Ret.Put none, Ret.Get (some 0) none].take 3) ∧
      countGot ([Ret.Get (some 0) none, Ret.Put none, Ret.Get (some 0) none].take 3)
          + created exFactory exWorld.calls
        ≤ created exFactory wk.calls
          + countEnqueued ([Call.Get, Call.Put (some 0) false, Call.Get].take 3)
              ([Ret.Get (some 0) none, Ret.Put none, Ret.Get (some 0) none].take 3) :=
  Get_count_bound exMaxChan exClock exFactory 0 1 exWorld exWorld
    ⟨[⟨10, 100, 102⟩], [], 1, 3, ["new a connection", "get a connection"]⟩
    ⟨some ⟨[], 1, false⟩, some exFactory, 0, 0⟩ ⟨some ⟨[], 1, false⟩, some exFactory, 0, 0⟩
    [Call.Get, Call.Put (some 0) false, Call.Get]
    [Ret.Get (some 0) none, Ret.Put none, Ret.Get (some 0) none]
    rfl (by decide) rfl 3

end grpcpool
